import Mathlib

/-!
Verification of detect_non_followers.py (ig-tools).

The script reads two HTML exports (followers and followings), runs
difflib.unified_diff over their lines, regex-extracts href links from the diff
text, filters them, and opens the result in browser tabs in batches.

This file shallow-embeds the script together with the parts of the Python
standard library it relies on: str.splitlines(keepends=True),
re.findall with the fixed pattern used by extract_links, and
difflib.unified_diff for SequenceMatcher(None, a, b) with default arguments.
All definitions are executable and reduce in the kernel, so concrete runs can
be settled by decide or rfl.
-/

set_option maxRecDepth 16384

namespace IgTools

/-- Lines of a document, as produced by str.splitlines(keepends=True). -/
abbrev Lines := List String

/-! ### Python str.splitlines(keepends=True) -/

/-- Characters Python str.splitlines treats as line boundaries. -/
def isLineBoundary (c : Char) : Bool :=
  c == '\n' || c == '\r' || c == '\x0b' || c == '\x0c' ||
  c == '\x1c' || c == '\x1d' || c == '\x1e' || c == '\x85' ||
  c == '\u2028' || c == '\u2029'

/-- Accumulator-based splitter; acc holds the current line reversed. A CRLF
pair counts as a single boundary kept with its line. -/
def splitlinesAux : List Char → List Char → List String
  | acc, [] => if acc.isEmpty then [] else [String.mk acc.reverse]
  | acc, '\r' :: '\n' :: rest =>
      String.mk (acc.reverse ++ ['\r', '\n']) :: splitlinesAux [] rest
  | acc, c :: rest =>
      if isLineBoundary c then String.mk (acc.reverse ++ [c]) :: splitlinesAux [] rest
      else splitlinesAux (c :: acc) rest

/-- Python str.splitlines(keepends=True). -/
def splitlines_keepends (s : String) : Lines :=
  splitlinesAux [] s.toList

/-! ### The regex scanner of extract_links

The script runs re.findall with the fixed pattern matching an href attribute
whose value starts with http:// or https:// and continues with a nonempty run
of non-quote characters up to the closing quote; the captured group is the URL
itself. For this pattern the usual regex semantics collapse to a deterministic
matcher: at a given start position there is at most one match, and findall
performs a leftmost non-overlapping scan. -/

/-- URL body after the scheme: a nonempty maximal run of non-quote characters
that must be terminated by a closing quote. Returns the captured group
(scheme plus body) and the characters after the closing quote. -/
def matchUrlBody (scheme : List Char) (rest : List Char) : Option (List Char × List Char) :=
  match rest.takeWhile (fun c => c != '"'), rest.dropWhile (fun c => c != '"') with
  | [], _ => none
  | body, '"' :: tail => some (scheme ++ body, tail)
  | _, _ => none

/-- Scheme alternatives after the literal href="http prefix: the greedy
optional s with backtracking, then :// and the URL body. A text shorter than
four characters cannot continue the match in either alternative, because the
URL body needs a nonempty run plus a closing quote. -/
def matchScheme (rest : List Char) : Option (List Char × List Char) :=
  match rest with
  | d1 :: d2 :: d3 :: d4 :: rest2 =>
    if d1 = 's' ∧ d2 = ':' ∧ d3 = '/' ∧ d4 = '/' then
      matchUrlBody ['h', 't', 't', 'p', 's', ':', '/', '/'] rest2
    else if d1 = ':' ∧ d2 = '/' ∧ d3 = '/' then
      matchUrlBody ['h', 't', 't', 'p', ':', '/', '/'] (d4 :: rest2)
    else none
  | _ => none

/-- Matcher for the href pattern at the start of cs: the literal prefix, then
the scheme alternatives. -/
def match_href_at (cs : List Char) : Option (List Char × List Char) :=
  match cs with
  | c1 :: c2 :: c3 :: c4 :: c5 :: c6 :: c7 :: c8 :: c9 :: c10 :: rest =>
    if c1 = 'h' ∧ c2 = 'r' ∧ c3 = 'e' ∧ c4 = 'f' ∧ c5 = '=' ∧ c6 = '"' ∧
        c7 = 'h' ∧ c8 = 't' ∧ c9 = 't' ∧ c10 = 'p' then
      matchScheme rest
    else none
  | _ => none

/-- Leftmost non-overlapping scan of re.findall: try each position left to
right and resume after the end of a match. Fuel is the length of the text,
which bounds the number of scan steps since a match consumes at least one
character. -/
def findallHrefAux : Nat → List Char → List String
  | 0, _ => []
  | _ + 1, [] => []
  | fuel + 1, c :: cs =>
    match match_href_at (c :: cs) with
    | some (g, rest) => String.mk g :: findallHrefAux fuel rest
    | none => findallHrefAux fuel cs

/-- extract_links from detect_non_followers.py. -/
def extract_links (s : String) : List String :=
  findallHrefAux s.toList.length s.toList

/-- Python substring containment, needle in haystack. -/
def containsSubstring (needle haystack : String) : Bool :=
  haystack.toList.tails.any (fun t => needle.toList.isPrefixOf t)

/-! ### difflib.SequenceMatcher(None, a, b)

The matcher is embedded for the instantiation the script uses: no isjunk
function (so the junk set bjunk is empty) and autojunk left at its default.
Dictionaries are total functions with 0 for absent keys; the b2j mapping is a
function from an element to its ascending occurrence list. -/

/-- Ascending positions at which element s occurs in b (b2j before the
autojunk purge). -/
def elemPositions (b : Lines) (s : String) : List Nat :=
  (List.range b.length).filter (fun j => decide (b.getD j "" = s))

/-- autojunk: with no isjunk function, an element of b is popular (and purged
from b2j) when len(b) is at least 200 and it occurs more than
len(b) / 100 + 1 times. -/
def isPopular (b : Lines) (s : String) : Bool :=
  decide (200 ≤ b.length) && decide (b.length / 100 + 1 < (elemPositions b s).length)

/-- The b2j mapping of SequenceMatcher(None, a, b): occurrence positions of s
in b, with popular elements purged. -/
def b2j (b : Lines) (s : String) : List Nat :=
  if isPopular b s then [] else elemPositions b s

/-- Ghost function for the analysis of the first pass of find_longest_match
on two equal sequences: chainLen l lo hi i j is the value the j2len chain
takes at column j after processing row i, namely the length of the longest
common junk-free suffix of the two windows ending at positions i and j. It is
zero unless j occurs in the b2j chain of the element at i and both i and j lie
in the window. -/
def chainLen (l : Lines) (lo hi : Nat) (i j : Nat) : Nat :=
  if j ∈ b2j l (l.getD i "") ∧ lo ≤ i ∧ lo ≤ j ∧ j < hi then
    (if i = 0 ∨ j = 0 then 1 else chainLen l lo hi (i - 1) (j - 1) + 1)
  else 0
termination_by i
decreasing_by
  rename_i h1 h2
  omega

/-- Inner loop of the first pass of find_longest_match: walk the ascending
occurrence list of a[i] in b, with continue below blo and break at bhi,
filling newj2len and updating the running best match. j2len and newj2len are
the dictionaries of the current and next outer iteration; the best triple is
(besti, bestj, bestsize). -/
def innerPass (blo bhi i : Nat) (j2len : Nat → Nat) :
    List Nat → (Nat → Nat) → Nat × Nat × Nat → (Nat → Nat) × (Nat × Nat × Nat)
  | [], newj2len, best => (newj2len, best)
  | j :: js, newj2len, best =>
    if j < blo then innerPass blo bhi i j2len js newj2len best
    else if bhi ≤ j then (newj2len, best)
    else
      let k := (if j = 0 then 0 else j2len (j - 1)) + 1
      innerPass blo bhi i j2len js (fun x => if x = j then k else newj2len x)
        (if best.2.2 < k then (i + 1 - k, j + 1 - k, k) else best)

/-- Outer loop of the first pass of find_longest_match over i in
range(alo, ahi). -/
def outerPass (a : Lines) (bj : String → List Nat) (blo bhi : Nat) :
    List Nat → (Nat → Nat) → Nat × Nat × Nat → Nat × Nat × Nat
  | [], _, best => best
  | i :: rest, j2len, best =>
    let r := innerPass blo bhi i j2len (bj (a.getD i "")) (fun _ => 0) best
    outerPass a bj blo bhi rest r.1 r.2

/-- First extension loop: extend the best match backward over elements that
are not in bjunk. Fuel besti suffices since besti decreases while above alo. -/
def extendBackward (a b : Lines) (isbjunk : String → Bool) (alo blo : Nat) :
    Nat → Nat × Nat × Nat → Nat × Nat × Nat
  | 0, best => best
  | fuel + 1, (bi, bj, bs) =>
    if alo < bi ∧ blo < bj ∧ isbjunk (b.getD (bj - 1) "") = false ∧
        a.getD (bi - 1) "" = b.getD (bj - 1) "" then
      extendBackward a b isbjunk alo blo fuel (bi - 1, bj - 1, bs + 1)
    else (bi, bj, bs)

/-- Second extension loop: extend the best match forward over elements that
are not in bjunk; returns the new size. Fuel ahi suffices since bi + bs
increases while below ahi. -/
def extendForward (a b : Lines) (isbjunk : String → Bool) (ahi bhi bi bj : Nat) :
    Nat → Nat → Nat
  | 0, bs => bs
  | fuel + 1, bs =>
    if bi + bs < ahi ∧ bj + bs < bhi ∧ isbjunk (b.getD (bj + bs) "") = false ∧
        a.getD (bi + bs) "" = b.getD (bj + bs) "" then
      extendForward a b isbjunk ahi bhi bi bj fuel (bs + 1)
    else bs

/-- Third extension loop: extend backward over matching bjunk elements. -/
def extendBackwardJunk (a b : Lines) (isbjunk : String → Bool) (alo blo : Nat) :
    Nat → Nat × Nat × Nat → Nat × Nat × Nat
  | 0, best => best
  | fuel + 1, (bi, bj, bs) =>
    if alo < bi ∧ blo < bj ∧ isbjunk (b.getD (bj - 1) "") = true ∧
        a.getD (bi - 1) "" = b.getD (bj - 1) "" then
      extendBackwardJunk a b isbjunk alo blo fuel (bi - 1, bj - 1, bs + 1)
    else (bi, bj, bs)

/-- Fourth extension loop: extend forward over matching bjunk elements. -/
def extendForwardJunk (a b : Lines) (isbjunk : String → Bool) (ahi bhi bi bj : Nat) :
    Nat → Nat → Nat
  | 0, bs => bs
  | fuel + 1, bs =>
    if bi + bs < ahi ∧ bj + bs < bhi ∧ isbjunk (b.getD (bj + bs) "") = true ∧
        a.getD (bi + bs) "" = b.getD (bj + bs) "" then
      extendForwardJunk a b isbjunk ahi bhi bi bj fuel (bs + 1)
    else bs

/-- SequenceMatcher.find_longest_match for SequenceMatcher(None, a, b): the
first pass over the b2j chains, then the four extension loops. The junk set
is empty because isjunk is None, so isbjunk is constantly false. -/
def find_longest_match (a b : Lines) (alo ahi blo bhi : Nat) : Nat × Nat × Nat :=
  let isbjunk : String → Bool := fun _ => false
  let p := outerPass a (b2j b) blo bhi (List.range' alo (ahi - alo)) (fun _ => 0) (alo, blo, 0)
  let p2 := extendBackward a b isbjunk alo blo p.1 p
  let p3 : Nat × Nat × Nat :=
    (p2.1, p2.2.1, extendForward a b isbjunk ahi bhi p2.1 p2.2.1 ahi p2.2.2)
  let p4 := extendBackwardJunk a b isbjunk alo blo p3.1 p3
  (p4.1, p4.2.1, extendForwardJunk a b isbjunk ahi bhi p4.1 p4.2.1 ahi p4.2.2)

/-- Recursive tiling of get_matching_blocks, emitting blocks in sorted order
(difflib drains an explicit worklist and sorts afterward, which yields the
same list since the blocks of the sub-windows are strictly ordered). Fuel
bounds the recursion depth; each level shrinks the window by at least one on
each side that recurses, so total length plus one suffices. -/
def matchingBlocksAux (a b : Lines) : Nat → Nat → Nat → Nat → Nat → List (Nat × Nat × Nat)
  | 0, _, _, _, _ => []
  | fuel + 1, alo, ahi, blo, bhi =>
    let m := find_longest_match a b alo ahi blo bhi
    if m.2.2 = 0 then []
    else
      (if alo < m.1 ∧ blo < m.2.1 then matchingBlocksAux a b fuel alo m.1 blo m.2.1 else [])
        ++ [m] ++
      (if m.1 + m.2.2 < ahi ∧ m.2.1 + m.2.2 < bhi then
        matchingBlocksAux a b fuel (m.1 + m.2.2) ahi (m.2.1 + m.2.2) bhi else [])

/-- Collapse adjacent blocks, as in get_matching_blocks; the starting state
(0, 0, 0) is the dummy that is dropped because its size is 0. -/
def collapseBlocks (i1 j1 k1 : Nat) : List (Nat × Nat × Nat) → List (Nat × Nat × Nat)
  | [] => if k1 = 0 then [] else [(i1, j1, k1)]
  | (i2, j2, k2) :: rest =>
    if i1 + k1 = i2 ∧ j1 + k1 = j2 then collapseBlocks i1 j1 (k1 + k2) rest
    else (if k1 = 0 then [] else [(i1, j1, k1)]) ++ collapseBlocks i2 j2 k2 rest

/-- SequenceMatcher.get_matching_blocks: tiled blocks, adjacent ones
collapsed, then the sentinel (len(a), len(b), 0). -/
def get_matching_blocks (a b : Lines) : List (Nat × Nat × Nat) :=
  collapseBlocks 0 0 0 (matchingBlocksAux a b (a.length + b.length + 1) 0 a.length 0 b.length)
    ++ [(a.length, b.length, 0)]

/-- Opcode tags of SequenceMatcher.get_opcodes. -/
inductive DiffTag where
  | replace : DiffTag
  | delete : DiffTag
  | insert : DiffTag
  | equal : DiffTag
deriving DecidableEq, Repr

/-- An opcode (tag, i1, i2, j1, j2). -/
abbrev Opcode := DiffTag × Nat × Nat × Nat × Nat

/-- Loop of get_opcodes over the matching blocks, carrying the cursor (i, j). -/
def opcodesFrom : Nat → Nat → List (Nat × Nat × Nat) → List Opcode
  | _, _, [] => []
  | i, j, (ai, bjj, size) :: rest =>
    (if i < ai ∧ j < bjj then [(DiffTag.replace, i, ai, j, bjj)]
     else if i < ai then [(DiffTag.delete, i, ai, j, bjj)]
     else if j < bjj then [(DiffTag.insert, i, ai, j, bjj)]
     else [])
      ++ (if size = 0 then [] else [(DiffTag.equal, ai, ai + size, bjj, bjj + size)])
      ++ opcodesFrom (ai + size) (bjj + size) rest

/-- SequenceMatcher.get_opcodes. -/
def get_opcodes (a b : Lines) : List Opcode :=
  opcodesFrom 0 0 (get_matching_blocks a b)

/-- get_grouped_opcodes: trim a leading equal opcode to n context lines. -/
def fixHead (n : Nat) : List Opcode → List Opcode
  | (DiffTag.equal, i1, i2, j1, j2) :: rest =>
      (DiffTag.equal, max i1 (i2 - n), i2, max j1 (j2 - n), j2) :: rest
  | l => l

/-- get_grouped_opcodes: trim a trailing equal opcode to n context lines. -/
def fixLast (n : Nat) (codes : List Opcode) : List Opcode :=
  match codes.getLast? with
  | some (DiffTag.equal, i1, i2, j1, j2) =>
      codes.dropLast ++ [(DiffTag.equal, i1, min i2 (i1 + n), j1, min j2 (j1 + n))]
  | _ => codes

/-- Grouping loop of get_grouped_opcodes: split groups at equal opcodes wider
than 2 n, and drop a final group that is empty or a single equal opcode. -/
def groupLoop (n : Nat) : List Opcode → List Opcode → List (List Opcode)
  | group, [] =>
    (match group with
     | [] => []
     | [(DiffTag.equal, _, _, _, _)] => []
     | _ => [group])
  | group, (tag, i1, i2, j1, j2) :: rest =>
    if tag = DiffTag.equal ∧ 2 * n < i2 - i1 then
      (group ++ [(tag, i1, min i2 (i1 + n), j1, min j2 (j1 + n))]) ::
        groupLoop n [(tag, max i1 (i2 - n), i2, max j1 (j2 - n), j2)] rest
    else groupLoop n (group ++ [(tag, i1, i2, j1, j2)]) rest

/-- SequenceMatcher.get_grouped_opcodes with n context lines (the script
leaves n at its default 3), applied to the opcodes of the matcher. -/
def get_grouped_opcodes (n : Nat) (codes0 : List Opcode) : List (List Opcode) :=
  let codes1 := if codes0 = [] then [(DiffTag.equal, 0, 1, 0, 1)] else codes0
  groupLoop n [] (fixLast n (fixHead n codes1))

/-- difflib._format_range_unified. -/
def formatRangeUnified (start stop : Nat) : String :=
  let beginning := start + 1
  let length := stop - start
  if length = 1 then toString beginning
  else if length = 0 then toString (beginning - 1) ++ "," ++ toString length
  else toString beginning ++ "," ++ toString length

/-- Lines a single opcode contributes to the unified diff body. -/
def opcodeLines (a b : Lines) (c : Opcode) : List String :=
  match c with
  | (DiffTag.equal, i1, i2, _, _) =>
      ((a.drop i1).take (i2 - i1)).map (fun line => " " ++ line)
  | (DiffTag.replace, i1, i2, j1, j2) =>
      ((a.drop i1).take (i2 - i1)).map (fun line => "-" ++ line)
        ++ ((b.drop j1).take (j2 - j1)).map (fun line => "+" ++ line)
  | (DiffTag.delete, i1, i2, _, _) =>
      ((a.drop i1).take (i2 - i1)).map (fun line => "-" ++ line)
  | (DiffTag.insert, _, _, j1, j2) =>
      ((b.drop j1).take (j2 - j1)).map (fun line => "+" ++ line)

/-- Placeholder opcode for head and last of a group; groups produced by
get_grouped_opcodes are never empty. -/
def dummyOpcode : Opcode := (DiffTag.equal, 0, 0, 0, 0)

/-- Hunk of one group: the range header line then the prefixed body lines. -/
def groupLines (a b : Lines) (group : List Opcode) : List String :=
  let first := group.headD dummyOpcode
  let last := group.getLastD dummyOpcode
  ("@@ -" ++ formatRangeUnified first.2.1 last.2.2.1 ++ " +"
      ++ formatRangeUnified first.2.2.2.1 last.2.2.2.2 ++ " @@\n")
    :: (group.map (opcodeLines a b)).flatten

/-- difflib.unified_diff(a, b) with default arguments: empty file names and
dates, lineterm a newline, n = 3. The two header lines appear only when at
least one group is produced. -/
def unified_diff (a b : Lines) : List String :=
  let groups := get_grouped_opcodes 3 (get_opcodes a b)
  if groups = [] then []
  else ["--- \n", "+++ \n"] ++ (groups.map (groupLines a b)).flatten

/-! ### The script itself -/

/-- find_and_extract_diff_links from detect_non_followers.py. followers and
followings are the PARAMETERS of the Python function: the unified diff runs
from followings to followers (both split into lines with keepends), the links
are extracted from the concatenated diff text, and a link is kept when it
contains the Instagram prefix and does not occur among the links of
followings. Note that main passes its arguments in the opposite order. -/
def find_and_extract_diff_links (followers followings : String) : List String :=
  let diff := unified_diff (splitlines_keepends followings) (splitlines_keepends followers)
  let diff_content := String.join diff
  let extracted := extract_links diff_content
  extracted.filter (fun link =>
    containsSubstring "https://www.instagram.com/" link
      && !((extract_links followings).contains link))

/-- The Result List of the pipeline: main reads the two files and calls
find_and_extract_diff_links(followings, followers), so the first parameter of
the function receives the followings content and the second the followers
content. Here followers and followings are the CONTENTS of the respective
files. -/
def pipeline_result (followers followings : String) : List String :=
  find_and_extract_diff_links followings followers

/-- Observable events of a run of main: stdout prints, file reads, browser
tabs opened, and sleeps. -/
inductive Event where
  | print : String → Event
  | readFile : String → Event
  | openTab : String → Event
  | sleep : Int → Event
deriving DecidableEq, Repr

/-- Python range(start, stop, step) for a positive step; fuel stop - start
bounds the number of elements. main never calls it with step 0 (that case
raises ValueError and is modeled in mainRun directly). -/
def rangeStepAux (step : Nat) : Nat → Nat → Nat → List Nat
  | 0, _, _ => []
  | fuel + 1, start, stop =>
    if start < stop then start :: rangeStepAux step fuel (start + step) stop else []

/-- Python range(start, stop, step) for step at least 1. -/
def rangeStep (start stop step : Nat) : List Nat :=
  rangeStepAux step (stop - start) start stop

/-- Trace of the tab-opening loop of main: for index in
range(0, len(new_links), num_tabs), print the chunk header, then for i in
range(index, index + num_tabs) with i < len(new_links) print and open the
link, then sleep duration seconds; the sleep also follows the final chunk. -/
def openBatchesEvents (new_links : List String) (num_tabs : Nat) (duration : Int) :
    List Event :=
  ((rangeStep 0 new_links.length num_tabs).map (fun index =>
    Event.print ("Opening new links in chunks of " ++ toString index)
      :: (((List.range' index num_tabs).map (fun i =>
            if i < new_links.length then
              [Event.print (new_links.getD i ""), Event.openTab (new_links.getD i "")]
            else [])).flatten
      ++ [Event.sleep duration]))).flatten

/-- Python truthiness test of the CLI path arguments: argparse yields None
when a flag is absent, and both None and the empty string are falsy. -/
def optFalsy : Option String → Bool
  | none => true
  | some s => decide (s = "")

/-- Model of main(args). The file system is a partial map from paths to
contents. The result is the trace of observable events together with the
uncaught exception, if one aborts the run: FileNotFoundError when open fails,
ValueError when range is called with num_tabs = 0 (negative num_tabs is not
modeled; the script parses it as an int and range would then yield no
iterations). -/
def mainRun (fs : String → Option String) (followersArg followingsArg : Option String)
    (num_tabs : Nat) (duration : Int) : List Event × Option String :=
  if optFalsy followersArg || optFalsy followingsArg then
    ([Event.print "Please provide both followers and followings HTML files."], none)
  else
    let fwPath := followersArg.getD ""
    let fgPath := followingsArg.getD ""
    match fs fwPath with
    | none => ([], some "FileNotFoundError")
    | some followers =>
      match fs fgPath with
      | none => ([Event.readFile fwPath], some "FileNotFoundError")
      | some followings =>
        let new_links := find_and_extract_diff_links followings followers
        let head := [Event.readFile fwPath, Event.readFile fgPath,
          Event.print ("Number of non-followers found: " ++ toString new_links.length)]
        if new_links = [] then
          (head ++ [Event.print
            "No new Instagram links were found in Followers compared to Followings."], none)
        else if num_tabs = 0 then (head, some "ValueError")
        else (head ++ openBatchesEvents new_links num_tabs duration, none)

/-! ### Specification-side definitions

These follow the wording of the specification and are compared against the
code-level definitions above; they are not part of the script. -/

/-- Partition of a list into consecutive chunks of size n (final chunk may be
shorter), following the wording of the Batch Opener specification. -/
def chunksOfAux (n : Nat) : Nat → List String → List (List String)
  | 0, _ => []
  | _ + 1, [] => []
  | fuel + 1, l => l.take n :: chunksOfAux n fuel (l.drop n)

/-- Partition of a list into consecutive chunks of size n. -/
def chunksOf (n : Nat) (l : List String) : List (List String) :=
  chunksOfAux n l.length l

/-- All matches of the href pattern in cs as (start position, match length,
captured group), in order of start position, duplicates retained. This is the
set of ALL matching substrings, including overlapping ones. -/
def allHrefMatchTriples (cs : List Char) : List (Nat × Nat × String) :=
  (List.range cs.length).filterMap (fun p =>
    (match_href_at (cs.drop p)).map (fun m => (p, (cs.drop p).length - m.2.length, String.mk m.1)))

/-- Sequence of all substrings of s matching the href attribute pattern, in
order of first appearance, duplicates retained: the reading of the Link
Extractor specification with overlapping matches included. -/
def spec_all_href_matches (s : String) : List String :=
  (allHrefMatchTriples s.toList).map (fun t => t.2.2)

/-- Left-to-right non-overlapping selection from a position-ordered match
list: keep a match when it starts at or after the cursor, then move the
cursor past it. -/
def selectNonOverlapping : Nat → List (Nat × Nat × String) → List String
  | _, [] => []
  | cursor, (p, len, g) :: rest =>
    if cursor ≤ p then g :: selectNonOverlapping (p + len) rest
    else selectNonOverlapping cursor rest

/-- The match triple produced at position p of cs, when the pattern matches
there. -/
def matchTripleAt (cs : List Char) (p : Nat) : Option (Nat × Nat × String) :=
  (match_href_at (cs.drop p)).map
    (fun m => (p, (cs.drop p).length - m.2.length, String.mk m.1))

/-- Match triples of cs at positions from p0 upward. -/
def triplesFrom (cs : List Char) (p0 : Nat) : List (Nat × Nat × String) :=
  (List.range' p0 (cs.length - p0)).filterMap (matchTripleAt cs)

/-- Shift the position of a match triple by k. -/
def tripleShift (k : Nat) (tr : Nat × Nat × String) : Nat × Nat × String :=
  (tr.1 + k, tr.2)

/-- Events of one chunk of the tab-opening loop: the printed header (the start
index of the chunk), the print and open of every link of the chunk, then the
sleep. -/
def chunkTrace (n : Nat) (d : Int) (kc : Nat × List String) : List Event :=
  Event.print ("Opening new links in chunks of " ++ toString (n * kc.1))
    :: ((kc.2.map (fun url => [Event.print url, Event.openTab url])).flatten
        ++ [Event.sleep d])

/-- Test for a sleep event. -/
def isSleepEvent : Event → Bool
  | Event.sleep _ => true
  | _ => false

/-- Test for a browser-open event. -/
def isOpenEvent : Event → Bool
  | Event.openTab _ => true
  | _ => false

/-- The URL of a browser-open event. -/
def openedUrl : Event → Option String
  | Event.openTab u => some u
  | _ => none

/-! ### Concrete documents used by the example claims -/

/-- Document holding only the alice link. -/
def aliceDoc : String := "href=\"https://www.instagram.com/alice/\""

/-- Document holding the alice link and the bob link. -/
def bothDoc : String :=
  "href=\"https://www.instagram.com/alice/\"\nhref=\"https://www.instagram.com/bob/\""

/-- Document holding a single Instagram link. -/
def xDoc : String := "href=\"https://www.instagram.com/x/\""

/-- File system where followers.html holds bothDoc and followings.html holds
aliceDoc: the layout of the claim C2 scenario as stated. -/
def fsC2stated : String → Option String := fun p =>
  if p = "followers.html" then some bothDoc
  else if p = "followings.html" then some aliceDoc
  else none

/-- File system where followers.html holds aliceDoc and followings.html holds
bothDoc: the claim C2 scenario with the two roles swapped. -/
def fsC2swapped : String → Option String := fun p =>
  if p = "followers.html" then some aliceDoc
  else if p = "followings.html" then some bothDoc
  else none

/-- File system with two empty documents. -/
def fsEmptyDocs : String → Option String := fun p =>
  if p = "a.html" then some "" else if p = "b.html" then some "" else none

end IgTools

namespace IgTools

/-! ### Basic lemmas -/

theorem contains_eq_true_of_mem {l : List String} {s : String} (h : s ∈ l) :
    l.contains s = true := by
  simpa using h

theorem not_mem_of_contains_eq_false {l : List String} {s : String}
    (h : l.contains s = false) : s ∉ l := by
  intro hmem
  rw [contains_eq_true_of_mem hmem] at h
  cases h

/-! ### Claims C1, C2, C3: direction of the pipeline

main calls find_and_extract_diff_links(followings, followers), so the
parameter named followings inside the function receives the followers file
content: the diff runs from the followers document to the followings document
and the final filter removes links occurring in the followers document. The
specification describes the opposite direction. -/

/-- Claim C1 (counterexample): with an empty followers document and a
followings document holding one Instagram link, that link lies in the full
link set of the followings document and nevertheless appears in the Result
List, refuting the claim that such links never appear there. -/
theorem c1_counterexample :
    "https://www.instagram.com/x/" ∈ extract_links xDoc ∧
    "https://www.instagram.com/x/" ∈ pipeline_result "" xDoc := by
  decide

/-- Claim C1 (amended): for every pair of input documents, any link present in
the FOLLOWERS document full link set never appears in the Result List, even if
that link is also present on the diff side coming from the followings
document. -/
theorem c1_amended (followers followings link : String)
    (h : link ∈ extract_links followers) :
    link ∉ pipeline_result followers followings := by
  intro hmem
  unfold pipeline_result find_and_extract_diff_links at hmem
  simp only [List.mem_filter, Bool.and_eq_true, Bool.not_eq_true'] at hmem
  exact not_mem_of_contains_eq_false hmem.2.2 h

/-- Witness for the amended claim C1 at a concrete input. -/
theorem c1_amended_witness : "https://www.instagram.com/x/" ∉ pipeline_result xDoc "" :=
  c1_amended xDoc "" "https://www.instagram.com/x/" (by decide)

/-- Claim C2 (counterexample): in the claimed scenario (followings holds the
alice link, followers holds the alice and bob links) the Result List is empty,
not the singleton bob link, and the printed count is 0, not 1. -/
theorem c2_counterexample :
    pipeline_result bothDoc aliceDoc = [] ∧
    pipeline_result bothDoc aliceDoc ≠ ["https://www.instagram.com/bob/"] ∧
    mainRun fsC2stated (some "followers.html") (some "followings.html") 5 30 =
      ([Event.readFile "followers.html", Event.readFile "followings.html",
        Event.print "Number of non-followers found: 0",
        Event.print "No new Instagram links were found in Followers compared to Followings."],
       none) := by
  refine ⟨by decide, by decide, by decide⟩

/-- Claim C2 (amended): with the two roles swapped - the followers document
holds the alice link and the followings document holds the alice and bob
links - the Result List is exactly the bob link and the printed count is 1. -/
theorem c2_amended :
    pipeline_result aliceDoc bothDoc = ["https://www.instagram.com/bob/"] ∧
    mainRun fsC2swapped (some "followers.html") (some "followings.html") 5 30 =
      ([Event.readFile "followers.html", Event.readFile "followings.html",
        Event.print "Number of non-followers found: 1",
        Event.print "Opening new links in chunks of 0",
        Event.print "https://www.instagram.com/bob/",
        Event.openTab "https://www.instagram.com/bob/",
        Event.sleep 30],
       none) := by
  refine ⟨by decide, by decide⟩

/-- Claim C3 (counterexample): with an empty followings document and a
followers document holding exactly one Instagram link, the Result List is
empty and in particular does not contain that link. -/
theorem c3_counterexample :
    pipeline_result xDoc "" = [] ∧
    "https://www.instagram.com/x/" ∉ pipeline_result xDoc "" := by
  decide

/-- Claim C3 (amended): with the two roles swapped - an empty followers
document and a followings document holding exactly one Instagram link - the
Result List contains exactly that link. -/
theorem c3_amended :
    pipeline_result "" xDoc = ["https://www.instagram.com/x/"] := by
  decide

/-! ### Claim C9: shape of every link the pipeline returns -/

/-- Claim C9: for every pair of input documents, every link in the Result List
contains the substring https://www.instagram.com/ and is absent from the link
set extracted from the followers document full content. -/
theorem c9_result_links (followers followings link : String)
    (h : link ∈ pipeline_result followers followings) :
    containsSubstring "https://www.instagram.com/" link = true ∧
    link ∉ extract_links followers := by
  unfold pipeline_result find_and_extract_diff_links at h
  simp only [List.mem_filter, Bool.and_eq_true, Bool.not_eq_true'] at h
  exact ⟨h.2.1, not_mem_of_contains_eq_false h.2.2⟩

/-- Witness for claim C9 at a concrete input. -/
theorem c9_result_links_witness :
    containsSubstring "https://www.instagram.com/" "https://www.instagram.com/x/" = true ∧
    "https://www.instagram.com/x/" ∉ extract_links "" :=
  c9_result_links "" xDoc "https://www.instagram.com/x/" (by decide)

/-! ### Claim C8: missing CLI paths -/

/-- Claim C8: if either required path is empty or unset, main prints a message
to standard output and returns normally, with no file read, no browser tab and
no uncaught exception. -/
theorem c8_missing_args (fs : String → Option String) (fw fg : Option String)
    (n : Nat) (d : Int) (h : optFalsy fw = true ∨ optFalsy fg = true) :
    mainRun fs fw fg n d =
      ([Event.print "Please provide both followers and followings HTML files."], none) := by
  unfold mainRun
  rcases h with h | h <;> simp [h]

/-- Witness for claim C8 at a concrete input. -/
theorem c8_missing_args_witness :
    mainRun (fun _ => none) none (some "followers.html") 5 30 =
      ([Event.print "Please provide both followers and followings HTML files."], none) :=
  c8_missing_args (fun _ => none) none (some "followers.html") 5 30 (Or.inl (by decide))

/-! ### Claim C10: empty Result List -/

/-- Claim C10: when both files are read and the computed Result List is empty,
main performs no browser-open call and no sleep: the whole trace is the two
file reads, the count line with count 0, and the message that no new Instagram
links were found. -/
theorem c10_empty_result (fs : String → Option String) (fwPath fgPath : String)
    (n : Nat) (d : Int) (A B : String)
    (hfw : fwPath ≠ "") (hfg : fgPath ≠ "")
    (hA : fs fwPath = some A) (hB : fs fgPath = some B)
    (hres : find_and_extract_diff_links B A = []) :
    mainRun fs (some fwPath) (some fgPath) n d =
      ([Event.readFile fwPath, Event.readFile fgPath,
        Event.print "Number of non-followers found: 0",
        Event.print "No new Instagram links were found in Followers compared to Followings."],
       none) := by
  unfold mainRun
  simp [optFalsy, hfw, hfg, hA, hB, hres]
  rfl

/-! ### Claims C6 and C7: the Batch Opener -/

theorem rangeStepAux_congr (step : Nat) (hstep : 1 ≤ step) :
    ∀ f1 f2 start stop, stop - start ≤ f1 → stop - start ≤ f2 →
      rangeStepAux step f1 start stop = rangeStepAux step f2 start stop := by
  intro f1
  induction f1 with
  | zero =>
    intro f2 start stop h1 _
    have hlt : ¬ start < stop := by omega
    cases f2 with
    | zero => rfl
    | succ k => simp [rangeStepAux, hlt]
  | succ m ih =>
    intro f2 start stop h1 h2
    by_cases hlt : start < stop
    · obtain ⟨k, hk⟩ : ∃ k, f2 = k + 1 := ⟨f2 - 1, by omega⟩
      subst hk
      simp only [rangeStepAux, if_pos hlt]
      rw [ih k (start + step) stop (by omega) (by omega)]
    · cases f2 with
      | zero => simp [rangeStepAux, hlt]
      | succ k => simp [rangeStepAux, hlt]

theorem rangeStep_cons (start stop step : Nat) (hstep : 1 ≤ step) (h : start < stop) :
    rangeStep start stop step = start :: rangeStep (start + step) stop step := by
  unfold rangeStep
  obtain ⟨t, ht⟩ : ∃ t, stop - start = t + 1 := ⟨stop - start - 1, by omega⟩
  rw [ht]
  simp only [rangeStepAux, if_pos h]
  congr 1
  exact rangeStepAux_congr step hstep t (stop - (start + step)) (start + step) stop
    (by omega) (by omega)

theorem rangeStep_nil (start stop step : Nat) (h : stop ≤ start) :
    rangeStep start stop step = [] := by
  unfold rangeStep
  rw [Nat.sub_eq_zero_of_le h]
  rfl

theorem chunksOfAux_congr (n : Nat) (hn : 1 ≤ n) :
    ∀ f1 f2 (l : List String), l.length ≤ f1 → l.length ≤ f2 →
      chunksOfAux n f1 l = chunksOfAux n f2 l := by
  intro f1
  induction f1 with
  | zero =>
    intro f2 l h1 _
    have hl : l = [] := List.eq_nil_of_length_eq_zero (Nat.le_zero.mp h1)
    subst hl
    cases f2 <;> rfl
  | succ m ih =>
    intro f2 l h1 h2
    cases l with
    | nil => cases f2 <;> rfl
    | cons x xs =>
      obtain ⟨k, hk⟩ : ∃ k, f2 = k + 1 := ⟨f2 - 1, by simp at h2; omega⟩
      subst hk
      simp only [List.length_cons] at h1 h2
      simp only [chunksOfAux]
      congr 1
      exact ih k ((x :: xs).drop n)
        (by rw [List.length_drop, List.length_cons]; omega)
        (by rw [List.length_drop, List.length_cons]; omega)

theorem chunksOf_cons (n : Nat) (hn : 1 ≤ n) (x : String) (xs : List String) :
    chunksOf n (x :: xs) = (x :: xs).take n :: chunksOf n ((x :: xs).drop n) := by
  unfold chunksOf
  rw [List.length_cons]
  simp only [chunksOfAux]
  congr 1
  exact chunksOfAux_congr n hn xs.length ((x :: xs).drop n).length ((x :: xs).drop n)
    (by rw [List.length_drop, List.length_cons]; omega) (le_refl _)

theorem chunksOf_flatten_bounded (n : Nat) (hn : 1 ≤ n) :
    ∀ (N : Nat) (l : List String), l.length ≤ N → (chunksOf n l).flatten = l := by
  intro N
  induction N with
  | zero =>
    intro l h
    have hl : l = [] := List.eq_nil_of_length_eq_zero (Nat.le_zero.mp h)
    subst hl
    rfl
  | succ m ih =>
    intro l h
    cases l with
    | nil => rfl
    | cons x xs =>
      rw [chunksOf_cons n hn x xs, List.flatten_cons,
        ih ((x :: xs).drop n)
          (by rw [List.length_drop, List.length_cons]
              simp only [List.length_cons] at h
              omega)]
      exact List.take_append_drop n (x :: xs)

theorem chunksOf_length_bounded (n : Nat) (hn : 1 ≤ n) :
    ∀ (N : Nat) (l : List String), l.length ≤ N →
      (chunksOf n l).length = (l.length + n - 1) / n := by
  intro N
  induction N with
  | zero =>
    intro l h
    have hl : l = [] := List.eq_nil_of_length_eq_zero (Nat.le_zero.mp h)
    subst hl
    show (0 : Nat) = (0 + n - 1) / n
    rw [Nat.zero_add, Nat.div_eq_of_lt (by omega)]
  | succ m ih =>
    intro l h
    cases l with
    | nil =>
      show (0 : Nat) = (0 + n - 1) / n
      rw [Nat.zero_add, Nat.div_eq_of_lt (by omega)]
    | cons x xs =>
      rw [chunksOf_cons n hn x xs, List.length_cons,
        ih ((x :: xs).drop n)
          (by rw [List.length_drop, List.length_cons]
              simp only [List.length_cons] at h
              omega)]
      rw [List.length_drop, List.length_cons]
      have hrhs : xs.length + 1 + n - 1 = (xs.length + 1 - 1) + n := by omega
      rw [hrhs, Nat.add_div_right _ (by omega)]
      congr 1
      by_cases hcase : n ≤ xs.length + 1
      · congr 1
        omega
      · rw [Nat.div_eq_of_lt (by omega), Nat.div_eq_of_lt (by omega)]

theorem chunksOf_eq_nil_iff (n : Nat) (hn : 1 ≤ n) (l : List String) :
    chunksOf n l = [] ↔ l = [] := by
  cases l with
  | nil => simp [chunksOf, chunksOfAux]
  | cons x xs =>
    rw [chunksOf_cons n hn x xs]
    simp

theorem chunksOf_sizes_bounded (n : Nat) (hn : 1 ≤ n) :
    ∀ (N : Nat) (l : List String), l.length ≤ N →
      ∀ c ∈ chunksOf n l, 1 ≤ c.length ∧ c.length ≤ n := by
  intro N
  induction N with
  | zero =>
    intro l h c hc
    have hl : l = [] := List.eq_nil_of_length_eq_zero (Nat.le_zero.mp h)
    subst hl
    cases hc
  | succ m ih =>
    intro l h c hc
    cases l with
    | nil => cases hc
    | cons x xs =>
      rw [chunksOf_cons n hn x xs] at hc
      rcases List.mem_cons.mp hc with hc | hc
      · subst hc
        rw [List.length_take, List.length_cons]
        constructor
        · omega
        · exact inf_le_left
      · exact ih ((x :: xs).drop n)
            (by rw [List.length_drop, List.length_cons]
                simp only [List.length_cons] at h
                omega) c hc

theorem chunksOf_dropLast_bounded (n : Nat) (hn : 1 ≤ n) :
    ∀ (N : Nat) (l : List String), l.length ≤ N →
      ∀ c ∈ (chunksOf n l).dropLast, c.length = n := by
  intro N
  induction N with
  | zero =>
    intro l h c hc
    have hl : l = [] := List.eq_nil_of_length_eq_zero (Nat.le_zero.mp h)
    subst hl
    cases hc
  | succ m ih =>
    intro l h c hc
    cases l with
    | nil => cases hc
    | cons x xs =>
      rw [chunksOf_cons n hn x xs] at hc
      by_cases hrest : chunksOf n ((x :: xs).drop n) = []
      · rw [hrest] at hc
        cases hc
      · rw [List.dropLast_cons_of_ne_nil hrest] at hc
        rcases List.mem_cons.mp hc with hc | hc
        · subst hc
          have hxl : ¬ (x :: xs).drop n = [] :=
            fun hd => hrest (by rw [hd]; rfl)
          have hlen : n < (x :: xs).length := by
            by_contra hge
            exact hxl (List.drop_eq_nil_of_le (by omega))
          rw [List.length_take]
          omega
        · exact ih ((x :: xs).drop n)
            (by rw [List.length_drop, List.length_cons]
                simp only [List.length_cons] at h
                omega) c hc

theorem innerBody_eq (links : List String) :
    ∀ (cnt index : Nat),
      ((List.range' index cnt).map (fun i =>
        if i < links.length then
          [Event.print (links.getD i ""), Event.openTab (links.getD i "")]
        else [])).flatten
      = (((links.drop index).take cnt).map (fun url =>
          [Event.print url, Event.openTab url])).flatten := by
  intro cnt
  induction cnt with
  | zero => intro index; simp
  | succ m ih =>
    intro index
    rw [List.range'_succ]
    cases hdrop : links.drop index with
    | nil =>
      have hlen : links.length ≤ index := List.drop_eq_nil_iff.mp hdrop
      have hnext : links.drop (index + 1) = [] := List.drop_eq_nil_of_le (by omega)
      rw [List.map_cons, List.flatten_cons, if_neg (by omega), ih (index + 1), hnext]
      simp
    | cons u rest =>
      have hidx : index < links.length := by
        by_contra hge
        rw [List.drop_eq_nil_of_le (by omega)] at hdrop
        cases hdrop
      have hu : links.getD index "" = u := by
        rw [List.getD_eq_getElem?_getD]
        have h0 : (links.drop index)[0]? = links[index + 0]? := List.getElem?_drop links index 0
        rw [hdrop] at h0
        have h1 : links[index]? = some u := by simpa using h0.symm
        rw [h1]
        rfl
      have hrest : links.drop (index + 1) = rest := by
        have h2 : List.drop 1 (List.drop index links) = List.drop (index + 1) links :=
          List.drop_drop 1 index links
        rw [← h2, hdrop]
        rfl
      rw [List.map_cons, List.flatten_cons, if_pos hidx, hu, ih (index + 1), hrest]
      rw [List.take_cons (by omega), List.map_cons, List.flatten_cons]
      simp

theorem openBatches_from (links : List String) (n : Nat) (d : Int) (hn : 1 ≤ n) :
    ∀ (N k : Nat), links.length - n * k ≤ N →
      ((rangeStep (n * k) links.length n).map (fun index =>
        Event.print ("Opening new links in chunks of " ++ toString index)
          :: (((List.range' index n).map (fun i =>
                if i < links.length then
                  [Event.print (links.getD i ""), Event.openTab (links.getD i "")]
                else [])).flatten
          ++ [Event.sleep d]))).flatten
      = (((chunksOf n (links.drop (n * k))).enumFrom k).map (chunkTrace n d)).flatten := by
  intro N
  induction N with
  | zero =>
    intro k h
    have hge : links.length ≤ n * k := by omega
    rw [rangeStep_nil _ _ _ hge, List.drop_eq_nil_of_le hge]
    rfl
  | succ m ih =>
    intro k h
    by_cases hlt : n * k < links.length
    · have hne : links.drop (n * k) ≠ [] := by
        intro hd
        have := List.drop_eq_nil_iff.mp hd
        omega
      obtain ⟨x, xs, hxs⟩ : ∃ x xs, links.drop (n * k) = x :: xs := by
        cases hd : links.drop (n * k) with
        | nil => exact absurd hd hne
        | cons x xs => exact ⟨x, xs, rfl⟩
      rw [rangeStep_cons _ _ _ hn hlt, hxs, chunksOf_cons n hn x xs,
        List.enumFrom_cons, List.map_cons, List.map_cons, List.flatten_cons,
        List.flatten_cons]
      have hdropn : (x :: xs).drop n = links.drop (n * (k + 1)) := by
        have hmul : n * k + n = n * (k + 1) := by ring
        rw [← hxs, List.drop_drop, hmul]
      have hstep : n * k + n = n * (k + 1) := by ring
      rw [hdropn, hstep, ih (k + 1) (by omega)]
      congr 1
      unfold chunkTrace
      rw [innerBody_eq links n (n * k), hxs]
    · rw [rangeStep_nil _ _ _ (by omega), List.drop_eq_nil_of_le (by omega)]
      rfl

/-- The trace of the Batch Opener equals the concatenation of the per-chunk
traces of the partition of the link list into chunks of size n. -/
theorem openBatches_eq_chunks (links : List String) (n : Nat) (d : Int) (hn : 1 ≤ n) :
    openBatchesEvents links n d =
      ((chunksOf n links).enum.map (chunkTrace n d)).flatten := by
  have h := openBatches_from links n d hn links.length 0 (by omega)
  rw [Nat.mul_zero] at h
  rw [List.drop_zero] at h
  unfold openBatchesEvents
  rw [h]
  rfl

theorem body_filterMap_opened (c : List String) :
    ((c.map (fun url => [Event.print url, Event.openTab url])).flatten).filterMap
      openedUrl = c := by
  induction c with
  | nil => rfl
  | cons u us ih =>
    rw [List.map_cons, List.flatten_cons, List.filterMap_append, ih]
    rfl

theorem chunkTrace_filterMap_opened (n : Nat) (d : Int) (kc : Nat × List String) :
    (chunkTrace n d kc).filterMap openedUrl = kc.2 := by
  obtain ⟨k, c⟩ := kc
  unfold chunkTrace
  have h1 : ∀ (s : String) (l : List Event),
      (Event.print s :: l).filterMap openedUrl = l.filterMap openedUrl := fun s l => rfl
  rw [h1, List.filterMap_append, body_filterMap_opened]
  show c ++ ([] : List String) = c
  exact List.append_nil c

theorem chunkTrace_countP_sleep (n : Nat) (d : Int) (kc : Nat × List String) :
    (chunkTrace n d kc).countP isSleepEvent = 1 := by
  obtain ⟨k, c⟩ := kc
  unfold chunkTrace
  rw [List.countP_cons, List.countP_append]
  have hbody : ((c.map (fun url =>
      [Event.print url, Event.openTab url])).flatten).countP isSleepEvent = 0 := by
    induction c with
    | nil => rfl
    | cons u us ihc =>
      rw [List.map_cons, List.flatten_cons, List.countP_append, ihc]
      rfl
  rw [hbody]
  rfl

theorem chunkTrace_getLast (n : Nat) (d : Int) (kc : Nat × List String) :
    (chunkTrace n d kc).getLast? = some (Event.sleep d) := by
  obtain ⟨k, c⟩ := kc
  unfold chunkTrace
  rw [show (Event.print ("Opening new links in chunks of " ++ toString (n * k))
      :: (((c.map (fun url => [Event.print url, Event.openTab url])).flatten)
        ++ [Event.sleep d]))
    = (Event.print ("Opening new links in chunks of " ++ toString (n * k))
      :: ((c.map (fun url => [Event.print url, Event.openTab url])).flatten))
        ++ [Event.sleep d] from rfl]
  exact List.getLast?_concat _

theorem flatten_getLast (e : Event) :
    ∀ (L : List (List Event)), L ≠ [] → (∀ t ∈ L, t.getLast? = some e) →
      L.flatten.getLast? = some e := by
  intro L
  induction L with
  | nil => intro h _; exact absurd rfl h
  | cons t rest ih =>
    intro _ hall
    cases rest with
    | nil =>
      rw [show ([t] : List (List Event)).flatten = t by simp]
      exact hall t (List.mem_cons_self t [])
    | cons t2 rest2 =>
      rw [List.flatten_cons, List.getLast?_append]
      have h2 : (t2 :: rest2).flatten.getLast? = some e := by
        apply ih
        · exact List.cons_ne_nil t2 rest2
        · intro u hu
          exact hall u (List.mem_cons_of_mem t hu)
      rw [h2]
      rfl

/-- Claim C6: for every result list of length at least 1 and batch size n at
least 1, the Batch Opener partitions the list into ceil(L / n) consecutive
chunks, each of size n except possibly the last (shorter) one, its trace is
the concatenation of the per-chunk traces, and it issues exactly one
browser-open call per link, in list order. -/
theorem c6_batch_partition (links : List String) (n : Nat) (d : Int)
    (hn : 1 ≤ n) (_hL : 1 ≤ links.length) :
    (chunksOf n links).length = (links.length + n - 1) / n ∧
    (chunksOf n links).flatten = links ∧
    (∀ c ∈ (chunksOf n links).dropLast, c.length = n) ∧
    (∀ c ∈ chunksOf n links, 1 ≤ c.length ∧ c.length ≤ n) ∧
    openBatchesEvents links n d = ((chunksOf n links).enum.map (chunkTrace n d)).flatten ∧
    (openBatchesEvents links n d).filterMap openedUrl = links := by
  refine ⟨chunksOf_length_bounded n hn links.length links (le_refl _),
    chunksOf_flatten_bounded n hn links.length links (le_refl _),
    chunksOf_dropLast_bounded n hn links.length links (le_refl _),
    chunksOf_sizes_bounded n hn links.length links (le_refl _),
    openBatches_eq_chunks links n d hn, ?_⟩
  rw [openBatches_eq_chunks links n d hn, List.filterMap_flatten, List.map_map]
  have hmap : ((chunksOf n links).enum.map (List.filterMap openedUrl ∘ chunkTrace n d))
      = (chunksOf n links).enum.map Prod.snd := by
    apply List.map_congr_left
    intro kc _
    exact chunkTrace_filterMap_opened n d kc
  rw [hmap, List.enum_map_snd]
  exact chunksOf_flatten_bounded n hn links.length links (le_refl _)

/-- Witness for claim C6 at a concrete input. -/
theorem c6_batch_partition_witness :
    openBatchesEvents ["a", "b", "c"] 2 0 =
      ((chunksOf 2 ["a", "b", "c"]).enum.map (chunkTrace 2 0)).flatten :=
  (c6_batch_partition ["a", "b", "c"] 2 0 (by decide) (by decide)).2.2.2.2.1

/-- Claim C7: for every nonempty result list, the Batch Opener sleeps for the
pause duration d exactly once per chunk, including after the final chunk: the
number of sleep events equals the number of chunks and the final event of the
trace is a sleep. -/
theorem c7_sleep_after_every_chunk (links : List String) (n : Nat) (d : Int)
    (hn : 1 ≤ n) (hL : 1 ≤ links.length) :
    (openBatchesEvents links n d).countP isSleepEvent = (links.length + n - 1) / n ∧
    (openBatchesEvents links n d).getLast? = some (Event.sleep d) := by
  rw [openBatches_eq_chunks links n d hn]
  constructor
  · rw [List.countP_flatten, List.map_map]
    have hmap : ((chunksOf n links).enum.map (List.countP isSleepEvent ∘ chunkTrace n d))
        = (chunksOf n links).enum.map (fun _ => 1) := by
      apply List.map_congr_left
      intro kc _
      exact chunkTrace_countP_sleep n d kc
    rw [hmap, ← chunksOf_length_bounded n hn links.length links (le_refl _)]
    have hsum : ∀ (L : List (Nat × List String)), (L.map (fun _ => (1 : Nat))).sum = L.length := by
      intro L
      induction L with
      | nil => rfl
      | cons a t iht =>
        rw [List.map_cons, List.sum_cons, iht, List.length_cons]
        omega
    rw [hsum, List.enum_length]
  · apply flatten_getLast
    · have hne : chunksOf n links ≠ [] := by
        intro hnil
        have := (chunksOf_eq_nil_iff n hn links).mp hnil
        rw [this] at hL
        cases hL
      intro hnil
      apply hne
      have := congrArg List.length hnil
      rw [List.length_map, List.enum_length] at this
      exact List.eq_nil_of_length_eq_zero this
    · intro t ht
      obtain ⟨kc, _, hkc⟩ := List.mem_map.mp ht
      rw [← hkc]
      exact chunkTrace_getLast n d kc

/-- Witness for claim C7 at a concrete input. -/
theorem c7_sleep_after_every_chunk_witness :
    (openBatchesEvents ["a", "b", "c"] 2 0).getLast? = some (Event.sleep 0) :=
  (c7_sleep_after_every_chunk ["a", "b", "c"] 2 0 (by decide) (by decide)).2

/-- Witness for claim C10 at a concrete input. -/
theorem c10_empty_result_witness :
    mainRun fsEmptyDocs (some "a.html") (some "b.html") 5 30 =
      ([Event.readFile "a.html", Event.readFile "b.html",
        Event.print "Number of non-followers found: 0",
        Event.print "No new Instagram links were found in Followers compared to Followings."],
       none) :=
  c10_empty_result fsEmptyDocs "a.html" "b.html" 5 30 "" ""
    (by decide) (by decide) (by decide) (by decide) (by decide)


/-! ### Claim C5: the Link Extractor

re.findall performs a leftmost non-overlapping scan, so a matching substring
that starts inside an earlier match is not returned; the sequence of ALL
matching substrings (overlapping ones included) can therefore be strictly
larger than the output of extract_links. -/

theorem matchUrlBody_decomp (scheme r2 g rest : List Char)
    (h : matchUrlBody scheme r2 = some (g, rest)) :
    ∃ v, r2 = v ++ rest ∧ v ≠ [] := by
  unfold matchUrlBody at h
  split at h
  · cases h
  · rename_i body tail htw hdw
    refine ⟨r2.takeWhile (fun c => c != '"') ++ ['"'], ?_, by simp⟩
    injection h with h1
    injection h1 with h2 h3
    subst h3
    have hsplit := List.takeWhile_append_dropWhile (fun c => c != '"') r2
    rw [htw] at hsplit
    conv_lhs => rw [← hsplit]
    rw [List.append_assoc]
    rfl
  · cases h

theorem matchScheme_decomp (r g out : List Char)
    (h : matchScheme r = some (g, out)) :
    ∃ w, r = w ++ out ∧ w ≠ [] := by
  unfold matchScheme at h
  split at h
  · rename_i d1 d2 d3 d4 r2
    split at h
    · obtain ⟨v, hv, _⟩ := matchUrlBody_decomp _ _ _ _ h
      refine ⟨d1 :: d2 :: d3 :: d4 :: v, ?_, by simp⟩
      rw [hv]
      simp
    · split at h
      · obtain ⟨v, hv, _⟩ := matchUrlBody_decomp _ _ _ _ h
        refine ⟨d1 :: d2 :: d3 :: v, ?_, by simp⟩
        have hv2 : d4 :: r2 = v ++ out := hv
        rw [show d1 :: d2 :: d3 :: d4 :: r2 = d1 :: d2 :: d3 :: (d4 :: r2) from rfl, hv2]
        simp
      · cases h
  · cases h

theorem match_href_at_decomp (t g rest : List Char)
    (h : match_href_at t = some (g, rest)) :
    ∃ u, t = u ++ rest ∧ u ≠ [] := by
  unfold match_href_at at h
  split at h
  · rename_i c1 c2 c3 c4 c5 c6 c7 c8 c9 c10 r
    split at h
    · obtain ⟨w, hw, _⟩ := matchScheme_decomp _ _ _ h
      refine ⟨c1 :: c2 :: c3 :: c4 :: c5 :: c6 :: c7 :: c8 :: c9 :: c10 :: w, ?_, by simp⟩
      rw [hw]
      simp
    · cases h
  · cases h

theorem match_href_at_length (t g rest : List Char)
    (h : match_href_at t = some (g, rest)) : rest.length < t.length := by
  obtain ⟨u, hu, hune⟩ := match_href_at_decomp t g rest h
  subst hu
  rw [List.length_append]
  have hpos : 0 < u.length := List.length_pos.mpr hune
  omega

theorem match_href_at_drop (t g rest : List Char)
    (h : match_href_at t = some (g, rest)) :
    t.drop (t.length - rest.length) = rest := by
  obtain ⟨u, hu, _⟩ := match_href_at_decomp t g rest h
  subst hu
  rw [List.length_append, Nat.add_sub_cancel]
  exact List.drop_left u rest

theorem findallHrefAux_congr :
    ∀ f1 f2 (cs : List Char), cs.length ≤ f1 → cs.length ≤ f2 →
      findallHrefAux f1 cs = findallHrefAux f2 cs := by
  intro f1
  induction f1 with
  | zero =>
    intro f2 cs h1 _
    have hnil : cs = [] := List.eq_nil_of_length_eq_zero (Nat.le_zero.mp h1)
    subst hnil
    cases f2 <;> rfl
  | succ m ih =>
    intro f2 cs h1 h2
    cases cs with
    | nil => cases f2 <;> rfl
    | cons c cs2 =>
      obtain ⟨k, hk⟩ : ∃ k, f2 = k + 1 := ⟨f2 - 1, by simp at h2; omega⟩
      subst hk
      simp only [List.length_cons] at h1 h2
      simp only [findallHrefAux]
      cases hm : match_href_at (c :: cs2) with
      | none =>
        exact ih k cs2 (by omega) (by omega)
      | some pr =>
        obtain ⟨g, rest⟩ := pr
        have hlen := match_href_at_length (c :: cs2) g rest hm
        simp only [List.length_cons] at hlen
        exact congrArg (String.mk g :: ·) (ih k rest (by omega) (by omega))

theorem allTriples_eq_from0 (cs : List Char) :
    allHrefMatchTriples cs = triplesFrom cs 0 := by
  unfold allHrefMatchTriples triplesFrom matchTripleAt
  rw [List.range_eq_range', Nat.sub_zero]

theorem triplesFrom_nil (t : List Char) (p0 : Nat) (h : t.length ≤ p0) :
    triplesFrom t p0 = [] := by
  unfold triplesFrom
  rw [Nat.sub_eq_zero_of_le h]
  rfl

theorem triplesFrom_step (t : List Char) (p0 : Nat) (h : p0 < t.length) :
    triplesFrom t p0 = (matchTripleAt t p0).toList ++ triplesFrom t (p0 + 1) := by
  unfold triplesFrom
  obtain ⟨m, hm⟩ : ∃ m, t.length - p0 = m + 1 := ⟨t.length - p0 - 1, by omega⟩
  rw [hm, List.range'_succ, List.filterMap_cons]
  have hm2 : t.length - (p0 + 1) = m := by omega
  rw [hm2]
  cases matchTripleAt t p0 with
  | none => rfl
  | some tr => rfl

theorem matchTripleAt_shift (t : List Char) (k p : Nat) :
    matchTripleAt t (k + p) = (matchTripleAt (t.drop k) p).map (tripleShift k) := by
  unfold matchTripleAt
  rw [List.drop_drop]
  cases match_href_at (t.drop (k + p)) with
  | none => rfl
  | some m => simp [tripleShift, Nat.add_comm k p]

theorem triplesFrom_shift (t : List Char) (k : Nat) :
    triplesFrom t k = (triplesFrom (t.drop k) 0).map (tripleShift k) := by
  unfold triplesFrom
  rw [List.length_drop, Nat.sub_zero, ← List.range_eq_range',
    List.range'_eq_map_range, List.filterMap_map, List.map_filterMap]
  apply List.filterMap_congr
  intro p _
  exact matchTripleAt_shift t k p

theorem select_shift :
    ∀ (ts : List (Nat × Nat × String)) (c k : Nat),
      selectNonOverlapping (c + k) (ts.map (tripleShift k)) = selectNonOverlapping c ts := by
  intro ts
  induction ts with
  | nil => intro c k; rfl
  | cons tr rest ih =>
    intro c k
    obtain ⟨p, len, g⟩ := tr
    simp only [List.map_cons, tripleShift, selectNonOverlapping]
    by_cases hc : c ≤ p
    · rw [if_pos (by omega : c + k ≤ p + k), if_pos hc,
        show p + k + len = (p + len) + k from by omega, ih (p + len) k]
    · rw [if_neg (by omega : ¬ c + k ≤ p + k), if_neg hc]
      exact ih c k

theorem select_zero_one (ts : List (Nat × Nat × String)) :
    selectNonOverlapping 0 (ts.map (tripleShift 1))
      = selectNonOverlapping 1 (ts.map (tripleShift 1)) := by
  cases ts with
  | nil => rfl
  | cons tr rest =>
    obtain ⟨p, len, g⟩ := tr
    simp only [List.map_cons, tripleShift, selectNonOverlapping]
    rw [if_pos (by omega : (0 : Nat) ≤ p + 1), if_pos (by omega : 1 ≤ p + 1)]

theorem matchTripleAt_fst (t : List Char) (p : Nat) (tr : Nat × Nat × String)
    (h : matchTripleAt t p = some tr) : tr.1 = p := by
  unfold matchTripleAt at h
  cases hm : match_href_at (t.drop p) with
  | none => rw [hm] at h; cases h
  | some m =>
    rw [hm] at h
    injection h with h1
    rw [← h1]

theorem select_skip :
    ∀ (k p0 c : Nat) (t : List Char), c = p0 + k →
      selectNonOverlapping c (triplesFrom t p0)
        = selectNonOverlapping c (triplesFrom t c) := by
  intro k
  induction k with
  | zero =>
    intro p0 c t hc
    rw [hc, Nat.add_zero]
  | succ j ih =>
    intro p0 c t hc
    by_cases hp : p0 < t.length
    · rw [triplesFrom_step t p0 hp]
      cases h3 : matchTripleAt t p0 with
      | none =>
        show selectNonOverlapping c (triplesFrom t (p0 + 1)) = _
        exact ih (p0 + 1) c t (by omega)
      | some tr =>
        have htr := matchTripleAt_fst t p0 tr h3
        obtain ⟨p, len, g⟩ := tr
        simp only at htr
        show selectNonOverlapping c ((p, len, g) :: triplesFrom t (p0 + 1)) = _
        simp only [selectNonOverlapping]
        rw [if_neg (by omega : ¬ c ≤ p)]
        exact ih (p0 + 1) c t (by omega)
    · rw [triplesFrom_nil t p0 (by omega), triplesFrom_nil t c (by omega)]

theorem findall_select_bounded :
    ∀ (N : Nat) (t : List Char), t.length ≤ N →
      findallHrefAux t.length t = selectNonOverlapping 0 (triplesFrom t 0) := by
  intro N
  induction N with
  | zero =>
    intro t h
    have hnil : t = [] := List.eq_nil_of_length_eq_zero (Nat.le_zero.mp h)
    subst hnil
    rfl
  | succ m ih =>
    intro t h
    cases t with
    | nil => rfl
    | cons c cs =>
      have hlen0 : (0 : Nat) < (c :: cs).length := by simp
      rw [triplesFrom_step (c :: cs) 0 hlen0]
      simp only [List.length_cons, findallHrefAux]
      cases hm : match_href_at (c :: cs) with
      | none =>
        have hnone : matchTripleAt (c :: cs) 0 = none := by
          unfold matchTripleAt
          rw [List.drop_zero, hm]
          rfl
        rw [hnone]
        show findallHrefAux cs.length cs
          = selectNonOverlapping 0 (triplesFrom (c :: cs) 1)
        rw [ih cs (by simp at h; omega)]
        rw [show triplesFrom (c :: cs) 1
            = (triplesFrom cs 0).map (tripleShift 1) from triplesFrom_shift (c :: cs) 1]
        rw [select_zero_one]
        symm
        nth_rewrite 1 [← Nat.zero_add 1]
        exact select_shift (triplesFrom cs 0) 0 1
      | some pr =>
        obtain ⟨g, rest⟩ := pr
        have hsome : matchTripleAt (c :: cs) 0
            = some (0, (c :: cs).length - rest.length, String.mk g) := by
          unfold matchTripleAt
          rw [List.drop_zero, hm]
          rfl
        rw [hsome]
        have hlen := match_href_at_length (c :: cs) g rest hm
        have hrl : rest.length ≤ cs.length := by simp at hlen; omega
        show String.mk g :: findallHrefAux cs.length rest
          = selectNonOverlapping 0 ((0, (c :: cs).length - rest.length, String.mk g)
              :: triplesFrom (c :: cs) 1)
        rw [findallHrefAux_congr cs.length rest.length rest hrl (le_refl _)]
        rw [ih rest (by omega)]
        simp only [selectNonOverlapping]
        rw [if_pos (le_refl 0), Nat.zero_add]
        congr 1
        have hcons : 1 ≤ (c :: cs).length - rest.length := by
          simp only [List.length_cons]
          omega
        rw [select_skip ((c :: cs).length - rest.length - 1) 1
          ((c :: cs).length - rest.length) (c :: cs) (by omega)]
        rw [triplesFrom_shift (c :: cs) ((c :: cs).length - rest.length)]
        rw [match_href_at_drop (c :: cs) g rest hm]
        symm
        nth_rewrite 1 [← Nat.zero_add ((c :: cs).length - rest.length)]
        exact select_shift (triplesFrom rest 0) 0 ((c :: cs).length - rest.length)

theorem select_sublist :
    ∀ (ts : List (Nat × Nat × String)) (c : Nat),
      List.Sublist (selectNonOverlapping c ts) (ts.map (fun tr => tr.2.2)) := by
  intro ts
  induction ts with
  | nil => intro c; exact List.nil_sublist []
  | cons tr rest ih =>
    intro c
    obtain ⟨p, len, g⟩ := tr
    simp only [selectNonOverlapping, List.map_cons]
    by_cases hc : c ≤ p
    · rw [if_pos hc]
      exact List.Sublist.cons₂ g (ih (p + len))
    · rw [if_neg hc]
      exact List.Sublist.cons g (ih c)

/-- Claim C5 (counterexample): a text in which a matching substring starts
inside an earlier match. extract_links returns only the first match, while the
sequence of all substrings matching the pattern also contains the second one,
so extract_links does not return all matching substrings. -/
theorem c5_counterexample :
    extract_links "href=\"https://a/href=\"https://www.instagram.com/b\""
        = ["https://a/href="] ∧
    spec_all_href_matches "href=\"https://a/href=\"https://www.instagram.com/b\""
        = ["https://a/href=", "https://www.instagram.com/b"] ∧
    extract_links "href=\"https://a/href=\"https://www.instagram.com/b\""
      ≠ spec_all_href_matches "href=\"https://a/href=\"https://www.instagram.com/b\"" := by
  refine ⟨by decide, by decide, by decide⟩

/-- Claim C5 (amended): for every input text, extract_links returns the
left-to-right NON-OVERLAPPING selection from the position-ordered sequence of
all substrings matching the href pattern: a match is kept exactly when it
starts at or after the end of the previously kept match. In particular the
output is an order-preserving subsequence of the sequence of all matching
substrings, with duplicates retained. -/
theorem c5_amended (s : String) :
    extract_links s = selectNonOverlapping 0 (allHrefMatchTriples s.toList) ∧
    List.Sublist (extract_links s) (spec_all_href_matches s) := by
  have h1 : extract_links s = selectNonOverlapping 0 (triplesFrom s.toList 0) :=
    findall_select_bounded s.toList.length s.toList (le_refl _)
  refine ⟨?_, ?_⟩
  · rw [h1, allTriples_eq_from0]
  · rw [h1]
    unfold spec_all_href_matches
    rw [allTriples_eq_from0]
    exact select_sublist (triplesFrom s.toList 0) 0


/-! ### Claim C4: identical documents give an empty diff

For SequenceMatcher(None, l, l) the junk set is empty, so once the first pass
returns a best match lying on the diagonal, the two non-junk extension loops
stretch it to the whole window and the matcher tiles the sequence with one
equal opcode; get_grouped_opcodes then drops the single context-only group and
unified_diff produces no output. The heart of the argument is that the first
pass can only ever record diagonal matches, which is proved through the ghost
function chainLen. -/

theorem chainLen_unfold (l : Lines) (lo hi i j : Nat) :
    chainLen l lo hi i j =
      if j ∈ b2j l (l.getD i "") ∧ lo ≤ i ∧ lo ≤ j ∧ j < hi then
        (if i = 0 ∨ j = 0 then 1 else chainLen l lo hi (i - 1) (j - 1) + 1)
      else 0 := by
  rw [chainLen]

theorem chainLen_eq_zero (l : Lines) (lo hi i j : Nat)
    (h : ¬ (j ∈ b2j l (l.getD i "") ∧ lo ≤ i ∧ lo ≤ j ∧ j < hi)) :
    chainLen l lo hi i j = 0 := by
  rw [chainLen_unfold, if_neg h]

theorem chainLen_base (l : Lines) (lo hi i j : Nat)
    (h : j ∈ b2j l (l.getD i "") ∧ lo ≤ i ∧ lo ≤ j ∧ j < hi)
    (h0 : i = 0 ∨ j = 0) : chainLen l lo hi i j = 1 := by
  rw [chainLen_unfold, if_pos h, if_pos h0]

theorem chainLen_rec (l : Lines) (lo hi i j : Nat)
    (h : j ∈ b2j l (l.getD i "") ∧ lo ≤ i ∧ lo ≤ j ∧ j < hi)
    (hi0 : i ≠ 0) (hj0 : j ≠ 0) :
    chainLen l lo hi i j = chainLen l lo hi (i - 1) (j - 1) + 1 := by
  rw [chainLen_unfold, if_pos h, if_neg (by omega : ¬ (i = 0 ∨ j = 0))]

theorem chainLen_pos_cond (l : Lines) (lo hi i j : Nat)
    (h : 0 < chainLen l lo hi i j) :
    j ∈ b2j l (l.getD i "") ∧ lo ≤ i ∧ lo ≤ j ∧ j < hi := by
  by_contra hc
  rw [chainLen_eq_zero l lo hi i j hc] at h
  exact Nat.lt_irrefl 0 h

theorem chainLen_one_le (l : Lines) (lo hi i j : Nat)
    (h : j ∈ b2j l (l.getD i "") ∧ lo ≤ i ∧ lo ≤ j ∧ j < hi) :
    1 ≤ chainLen l lo hi i j := by
  rw [chainLen_unfold, if_pos h]
  by_cases h0 : i = 0 ∨ j = 0
  · rw [if_pos h0]
  · rw [if_neg h0]
    omega

theorem mem_b2j_iff (b : Lines) (s : String) (j : Nat) :
    j ∈ b2j b s ↔ isPopular b s = false ∧ j < b.length ∧ b.getD j "" = s := by
  unfold b2j
  by_cases hp : isPopular b s
  · simp [hp]
  · simp only [hp, if_neg]
    unfold elemPositions
    simp [List.mem_filter, List.mem_range, hp]

theorem chainLen_le_fst (l : Lines) (lo hi : Nat) :
    ∀ i j, chainLen l lo hi i j ≤ i + 1 - lo := by
  intro i
  induction i with
  | zero =>
    intro j
    rw [chainLen_unfold]
    by_cases h : j ∈ b2j l (l.getD 0 "") ∧ lo ≤ 0 ∧ lo ≤ j ∧ j < hi
    · rw [if_pos h, if_pos (Or.inl rfl)]
      omega
    · rw [if_neg h]
      omega
  | succ m ih =>
    intro j
    by_cases h : j ∈ b2j l (l.getD (m + 1) "") ∧ lo ≤ m + 1 ∧ lo ≤ j ∧ j < hi
    · by_cases h0 : j = 0
      · rw [chainLen_base l lo hi (m + 1) j h (Or.inr h0)]
        omega
      · rw [chainLen_rec l lo hi (m + 1) j h (by omega) h0]
        simp only [Nat.add_sub_cancel]
        have := ih (j - 1)
        omega
    · rw [chainLen_eq_zero l lo hi (m + 1) j h]
      omega

theorem chainLen_le_snd (l : Lines) (lo hi : Nat) :
    ∀ i j, chainLen l lo hi i j ≤ j + 1 - lo := by
  intro i
  induction i with
  | zero =>
    intro j
    rw [chainLen_unfold]
    by_cases h : j ∈ b2j l (l.getD 0 "") ∧ lo ≤ 0 ∧ lo ≤ j ∧ j < hi
    · rw [if_pos h, if_pos (Or.inl rfl)]
      omega
    · rw [if_neg h]
      omega
  | succ m ih =>
    intro j
    by_cases h : j ∈ b2j l (l.getD (m + 1) "") ∧ lo ≤ m + 1 ∧ lo ≤ j ∧ j < hi
    · by_cases h0 : j = 0
      · rw [chainLen_base l lo hi (m + 1) j h (Or.inr h0)]
        omega
      · rw [chainLen_rec l lo hi (m + 1) j h (by omega) h0]
        simp only [Nat.add_sub_cancel]
        have := ih (j - 1)
        omega
    · rw [chainLen_eq_zero l lo hi (m + 1) j h]
      omega

theorem chainLen_zero_of_lt_lo (l : Lines) (lo hi i j : Nat) (h : i < lo) :
    chainLen l lo hi i j = 0 :=
  chainLen_eq_zero l lo hi i j (by intro hc; omega)


theorem isPopular_congr (l : Lines) (s1 s2 : String) (h : s1 = s2) :
    isPopular l s1 = isPopular l s2 := by rw [h]

theorem chainLen_le_diag_left (l : Lines) (lo hi : Nat) :
    ∀ i j, j ≤ i → chainLen l lo hi i j ≤ chainLen l lo hi j j := by
  intro i
  induction i with
  | zero =>
    intro j hji
    have hj : j = 0 := Nat.le_zero.mp hji
    subst hj
    exact le_refl _
  | succ m ih =>
    intro j hji
    by_cases h : j ∈ b2j l (l.getD (m + 1) "") ∧ lo ≤ m + 1 ∧ lo ≤ j ∧ j < hi
    · by_cases hij : j = m + 1
      · subst hij
        exact le_refl _
      · have hjm : j ≤ m := by omega
        obtain ⟨hmem, hlo1, hloj, hjhi⟩ := h
        obtain ⟨hpop, hjlen, hval⟩ := (mem_b2j_iff l (l.getD (m + 1) "") j).mp hmem
        have hmemjj : j ∈ b2j l (l.getD j "") := by
          rw [mem_b2j_iff]
          refine ⟨?_, hjlen, rfl⟩
          rw [isPopular_congr l (l.getD j "") (l.getD (m + 1) "") hval]
          exact hpop
        have hcondjj : j ∈ b2j l (l.getD j "") ∧ lo ≤ j ∧ lo ≤ j ∧ j < hi :=
          ⟨hmemjj, hloj, hloj, hjhi⟩
        by_cases h0 : j = 0
        · rw [chainLen_base l lo hi (m + 1) j ⟨hmem, hlo1, hloj, hjhi⟩ (Or.inr h0)]
          exact chainLen_one_le l lo hi j j hcondjj
        · rw [chainLen_rec l lo hi (m + 1) j ⟨hmem, hlo1, hloj, hjhi⟩ (by omega) h0]
          rw [chainLen_rec l lo hi j j hcondjj h0 h0]
          simp only [Nat.add_sub_cancel]
          have := ih (j - 1) (by omega)
          omega
    · rw [chainLen_eq_zero l lo hi (m + 1) j h]
      exact Nat.zero_le _

theorem chainLen_le_diag_right (l : Lines) (lo hi : Nat) :
    ∀ i j, i ≤ j → i < l.length → chainLen l lo hi i j ≤ chainLen l lo hi i i := by
  intro i
  induction i with
  | zero =>
    intro j hij hlen
    by_cases h : j ∈ b2j l (l.getD 0 "") ∧ lo ≤ 0 ∧ lo ≤ j ∧ j < hi
    · obtain ⟨hmem, hlo0, hloj, hjhi⟩ := h
      obtain ⟨hpop, hjlen, hval⟩ := (mem_b2j_iff l (l.getD 0 "") j).mp hmem
      have hmem00 : (0 : Nat) ∈ b2j l (l.getD 0 "") := by
        rw [mem_b2j_iff]
        exact ⟨hpop, hlen, rfl⟩
      have hcond00 : (0 : Nat) ∈ b2j l (l.getD 0 "") ∧ lo ≤ 0 ∧ lo ≤ 0 ∧ 0 < hi :=
        ⟨hmem00, hlo0, hlo0, by omega⟩
      rw [chainLen_base l lo hi 0 j ⟨hmem, hlo0, hloj, hjhi⟩ (Or.inl rfl)]
      exact chainLen_one_le l lo hi 0 0 hcond00
    · rw [chainLen_eq_zero l lo hi 0 j h]
      exact Nat.zero_le _
  | succ m ih =>
    intro j hij hlen
    by_cases h : j ∈ b2j l (l.getD (m + 1) "") ∧ lo ≤ m + 1 ∧ lo ≤ j ∧ j < hi
    · obtain ⟨hmem, hlo1, hloj, hjhi⟩ := h
      obtain ⟨hpop, hjlen, hval⟩ := (mem_b2j_iff l (l.getD (m + 1) "") j).mp hmem
      have hmemii : (m + 1) ∈ b2j l (l.getD (m + 1) "") := by
        rw [mem_b2j_iff]
        exact ⟨hpop, hlen, rfl⟩
      have hcondii : (m + 1) ∈ b2j l (l.getD (m + 1) "") ∧ lo ≤ m + 1 ∧ lo ≤ m + 1 ∧
          m + 1 < hi := ⟨hmemii, hlo1, hlo1, by omega⟩
      have hj0 : j ≠ 0 := by omega
      rw [chainLen_rec l lo hi (m + 1) j ⟨hmem, hlo1, hloj, hjhi⟩ (by omega) hj0]
      rw [chainLen_rec l lo hi (m + 1) (m + 1) hcondii (by omega) (by omega)]
      simp only [Nat.add_sub_cancel]
      have := ih (j - 1) (by omega) (by omega)
      omega
    · rw [chainLen_eq_zero l lo hi (m + 1) j h]
      exact Nat.zero_le _


theorem b2j_sorted (b : Lines) (s : String) : List.Pairwise (· < ·) (b2j b s) := by
  unfold b2j
  by_cases hp : isPopular b s
  · simp [hp]
  · rw [if_neg hp]
    exact List.Pairwise.sublist (List.filter_sublist _) (List.pairwise_lt_range _)

theorem innerPass_self (l : Lines) (lo hi i : Nat)
    (hil : i < l.length) (hiw : lo ≤ i) (hih : i < hi)
    (j2len : Nat → Nat)
    (hk : ∀ j, j ∈ b2j l (l.getD i "") → lo ≤ j → j < hi →
      (if j = 0 then 0 else j2len (j - 1)) + 1 = chainLen l lo hi i j) :
    ∀ (js done : List Nat) (newj2len : Nat → Nat) (bi bs : Nat),
      b2j l (l.getD i "") = done ++ js →
      (∀ x ∈ done, ∀ y ∈ js, x < y) →
      List.Pairwise (· < ·) js →
      (∀ x, newj2len x = if x ∈ done ∧ lo ≤ x ∧ x < hi then chainLen l lo hi i x else 0) →
      lo ≤ bi → bi + bs ≤ hi → (bs = 0 → bi = lo) →
      (∀ i2 j2, i2 < i → chainLen l lo hi i2 j2 ≤ bs) →
      (∀ j2 ∈ done, chainLen l lo hi i j2 ≤ bs) →
      ∃ nj2 bi2 bs2,
        innerPass lo hi i j2len js newj2len (bi, bi, bs) = (nj2, (bi2, bi2, bs2)) ∧
        (∀ x, nj2 x = chainLen l lo hi i x) ∧
        lo ≤ bi2 ∧ bi2 + bs2 ≤ hi ∧ (bs2 = 0 → bi2 = lo) ∧
        (∀ i2 j2, i2 < i → chainLen l lo hi i2 j2 ≤ bs2) ∧
        (∀ j2, chainLen l lo hi i j2 ≤ bs2) := by
  intro js
  induction js with
  | nil =>
    intro done newj2len bi bs hfull hord hpair hinv hblo hbhi hbs0 hdomOld hdomDone
    refine ⟨newj2len, bi, bs, rfl, ?_, hblo, hbhi, hbs0, hdomOld, ?_⟩
    · intro x
      rw [hinv x]
      by_cases hc : x ∈ done ∧ lo ≤ x ∧ x < hi
      · rw [if_pos hc]
      · rw [if_neg hc]
        symm
        apply chainLen_eq_zero
        intro hcond
        rw [List.append_nil] at hfull
        exact hc ⟨hfull ▸ hcond.1, hcond.2.2.1, hcond.2.2.2⟩
    · intro j2
      by_cases hc : j2 ∈ done ∧ lo ≤ j2 ∧ j2 < hi
      · exact hdomDone j2 hc.1
      · rw [chainLen_eq_zero l lo hi i j2 (by
          intro hcond
          rw [List.append_nil] at hfull
          exact hc ⟨hfull ▸ hcond.1, hcond.2.2.1, hcond.2.2.2⟩)]
        exact Nat.zero_le _
  | cons j js ih =>
    intro done newj2len bi bs hfull hord hpair hinv hblo hbhi hbs0 hdomOld hdomDone
    have hjnotdone : j ∉ done := by
      intro hj
      exact Nat.lt_irrefl j (hord j hj j (List.mem_cons_self j js))
    by_cases hjlo : j < lo
    · -- continue branch
      have hstep : innerPass lo hi i j2len (j :: js) newj2len (bi, bi, bs)
          = innerPass lo hi i j2len js newj2len (bi, bi, bs) := by
        simp only [innerPass, if_pos hjlo]
      rw [hstep]
      apply ih (done ++ [j]) newj2len bi bs
      · rw [← List.append_cons]
        exact hfull
      · intro x hx y hy
        rcases List.mem_append.mp hx with hx | hx
        · exact hord x hx y (List.mem_cons_of_mem j hy)
        · rw [List.mem_singleton.mp hx]
          exact (List.pairwise_cons.mp hpair).1 y hy
      · exact (List.pairwise_cons.mp hpair).2
      · intro x
        rw [hinv x]
        apply if_congr ?_ rfl rfl
        constructor
        · rintro ⟨hx, hlx, hxh⟩
          exact ⟨List.mem_append.mpr (Or.inl hx), hlx, hxh⟩
        · rintro ⟨hx, hlx, hxh⟩
          rcases List.mem_append.mp hx with hx | hx
          · exact ⟨hx, hlx, hxh⟩
          · rw [List.mem_singleton.mp hx] at hlx
            omega
      · exact hblo
      · exact hbhi
      · exact hbs0
      · exact hdomOld
      · intro j2 hj2
        rcases List.mem_append.mp hj2 with hj2 | hj2
        · exact hdomDone j2 hj2
        · rw [List.mem_singleton.mp hj2]
          rw [chainLen_eq_zero l lo hi i j (by intro hcond; omega)]
          exact Nat.zero_le _
    · by_cases hjhi : hi ≤ j
      · -- break branch
        have hstep : innerPass lo hi i j2len (j :: js) newj2len (bi, bi, bs)
            = (newj2len, (bi, bi, bs)) := by
          simp only [innerPass, if_neg hjlo, if_pos hjhi]
        rw [hstep]
        have hzero : ∀ x, ¬ (x ∈ done ∧ lo ≤ x ∧ x < hi) → chainLen l lo hi i x = 0 := by
          intro x hc
          apply chainLen_eq_zero
          intro hcond
          apply hc
          refine ⟨?_, hcond.2.2.1, hcond.2.2.2⟩
          have hx : x ∈ done ++ j :: js := hfull ▸ hcond.1
          rcases List.mem_append.mp hx with hx | hx
          · exact hx
          · rcases List.mem_cons.mp hx with hx | hx
            · subst hx
              omega
            · have := (List.pairwise_cons.mp hpair).1 x hx
              omega
        refine ⟨newj2len, bi, bs, rfl, ?_, hblo, hbhi, hbs0, hdomOld, ?_⟩
        · intro x
          rw [hinv x]
          by_cases hc : x ∈ done ∧ lo ≤ x ∧ x < hi
          · rw [if_pos hc]
          · rw [if_neg hc, hzero x hc]
        · intro j2
          by_cases hc : j2 ∈ done ∧ lo ≤ j2 ∧ j2 < hi
          · exact hdomDone j2 hc.1
          · rw [hzero j2 hc]
            exact Nat.zero_le _
      · -- main branch: lo ≤ j < hi
        have hjlo2 : lo ≤ j := by omega
        have hjhi2 : j < hi := by omega
        have hmem : j ∈ b2j l (l.getD i "") := by
          rw [hfull]
          exact List.mem_append.mpr (Or.inr (List.mem_cons_self j js))
        have hcond : j ∈ b2j l (l.getD i "") ∧ lo ≤ i ∧ lo ≤ j ∧ j < hi :=
          ⟨hmem, hiw, hjlo2, hjhi2⟩
        have hkeq : (if j = 0 then 0 else j2len (j - 1)) + 1 = chainLen l lo hi i j :=
          hk j hmem hjlo2 hjhi2
        have hk1 : 1 ≤ chainLen l lo hi i j := by omega
        have hstep : innerPass lo hi i j2len (j :: js) newj2len (bi, bi, bs)
            = innerPass lo hi i j2len js
                (fun x => if x = j then chainLen l lo hi i j else newj2len x)
                (if bs < chainLen l lo hi i j
                  then (i + 1 - chainLen l lo hi i j, j + 1 - chainLen l lo hi i j,
                    chainLen l lo hi i j)
                  else (bi, bi, bs)) := by
          simp only [innerPass, if_neg hjlo, if_neg hjhi]
          rw [hkeq]
        rw [hstep]
        have hinvNew : ∀ x, (fun x => if x = j then chainLen l lo hi i j else newj2len x) x
            = if x ∈ done ++ [j] ∧ lo ≤ x ∧ x < hi then chainLen l lo hi i x else 0 := by
          intro x
          by_cases hxj : x = j
          · rw [hxj]
            have hbeta : (fun x1 => if x1 = j then chainLen l lo hi i j else newj2len x1) j
                = if j = j then chainLen l lo hi i j else newj2len j := rfl
            rw [hbeta, if_pos rfl,
              if_pos (show j ∈ done ++ [j] ∧ lo ≤ j ∧ j < hi from
                ⟨List.mem_append.mpr (Or.inr (List.mem_singleton.mpr rfl)),
                  hjlo2, hjhi2⟩)]
          · simp only [if_neg hxj]
            rw [hinv x]
            apply if_congr ?_ rfl rfl
            constructor
            · rintro ⟨hx, hlx, hxh⟩
              exact ⟨List.mem_append.mpr (Or.inl hx), hlx, hxh⟩
            · rintro ⟨hx, hlx, hxh⟩
              rcases List.mem_append.mp hx with hx | hx
              · exact ⟨hx, hlx, hxh⟩
              · exact absurd (List.mem_singleton.mp hx) hxj
        have hfull2 : b2j l (l.getD i "") = (done ++ [j]) ++ js := by
          rw [← List.append_cons]
          exact hfull
        have hord2 : ∀ x ∈ done ++ [j], ∀ y ∈ js, x < y := by
          intro x hx y hy
          rcases List.mem_append.mp hx with hx | hx
          · exact hord x hx y (List.mem_cons_of_mem j hy)
          · rw [List.mem_singleton.mp hx]
            exact (List.pairwise_cons.mp hpair).1 y hy
        have hpair2 : List.Pairwise (· < ·) js := (List.pairwise_cons.mp hpair).2
        by_cases hrec : bs < chainLen l lo hi i j
        · -- a record: it must lie on the diagonal
          have hji : j = i := by
            rcases Nat.lt_trichotomy j i with hlt | heq | hgt
            · have h1 := hdomOld j j hlt
              have h2 := chainLen_le_diag_left l lo hi i j (by omega)
              omega
            · exact heq
            · obtain ⟨hpop, _, _⟩ := (mem_b2j_iff l (l.getD i "") j).mp hmem
              have hmemi : i ∈ b2j l (l.getD i "") := by
                rw [mem_b2j_iff]
                exact ⟨hpop, hil, rfl⟩
              have hidone : i ∈ done := by
                rw [hfull] at hmemi
                rcases List.mem_append.mp hmemi with hx | hx
                · exact hx
                · rcases List.mem_cons.mp hx with hx | hx
                  · omega
                  · have := (List.pairwise_cons.mp hpair).1 i hx
                    omega
              have h1 := hdomDone i hidone
              have h2 := chainLen_le_diag_right l lo hi i j (by omega) hil
              omega
          subst hji
          rw [if_pos hrec]
          have hkfst := chainLen_le_fst l lo hi j j
          apply ih (done ++ [j])
            (fun x => if x = j then chainLen l lo hi j j else newj2len x)
            (j + 1 - chainLen l lo hi j j) (chainLen l lo hi j j)
            hfull2 hord2 hpair2 hinvNew
          · omega
          · omega
          · intro h0
            omega
          · intro i2 j2 hi2
            have := hdomOld i2 j2 hi2
            omega
          · intro j2 hj2
            rcases List.mem_append.mp hj2 with hj2 | hj2
            · have := hdomDone j2 hj2
              omega
            · rw [List.mem_singleton.mp hj2]
        · -- no record
          rw [if_neg hrec]
          apply ih (done ++ [j])
            (fun x => if x = j then chainLen l lo hi i j else newj2len x)
            bi bs hfull2 hord2 hpair2 hinvNew hblo hbhi hbs0 hdomOld
          intro j2 hj2
          rcases List.mem_append.mp hj2 with hj2 | hj2
          · exact hdomDone j2 hj2
          · rw [List.mem_singleton.mp hj2]
            omega


theorem chainLen_at_lo (l : Lines) (lo hi j : Nat)
    (h : j ∈ b2j l (l.getD lo "") ∧ lo ≤ lo ∧ lo ≤ j ∧ j < hi) :
    chainLen l lo hi lo j = 1 := by
  by_cases h0 : lo = 0 ∨ j = 0
  · exact chainLen_base l lo hi lo j h h0
  · rw [chainLen_rec l lo hi lo j h (by omega) (by omega)]
    rw [chainLen_zero_of_lt_lo l lo hi (lo - 1) (j - 1) (by omega)]

theorem outerPass_self (l : Lines) (lo hi : Nat) (hhi : hi ≤ l.length) :
    ∀ (cnt i0 : Nat), lo ≤ i0 → i0 + cnt = hi →
    ∀ (j2len : Nat → Nat) (bi bs : Nat),
      ((i0 = lo ∧ ∀ x, j2len x = 0) ∨
        (lo < i0 ∧ ∀ x, j2len x = chainLen l lo hi (i0 - 1) x)) →
      lo ≤ bi → bi + bs ≤ hi → (bs = 0 → bi = lo) →
      (∀ i2 j2, i2 < i0 → chainLen l lo hi i2 j2 ≤ bs) →
      ∃ bi2 bs2,
        outerPass l (b2j l) lo hi (List.range' i0 cnt) j2len (bi, bi, bs) = (bi2, bi2, bs2) ∧
        lo ≤ bi2 ∧ bi2 + bs2 ≤ hi ∧ (bs2 = 0 → bi2 = lo) ∧
        (∀ i2 j2, i2 < hi → chainLen l lo hi i2 j2 ≤ bs2) := by
  intro cnt
  induction cnt with
  | zero =>
    intro i0 hi0lo hi0 j2len bi bs hj2len hblo hbhi hbs0 hdom
    refine ⟨bi, bs, rfl, hblo, hbhi, hbs0, ?_⟩
    intro i2 j2 hi2
    exact hdom i2 j2 (by omega)
  | succ n ihp =>
    intro i0 hi0lo hi0 j2len bi bs hj2len hblo hbhi hbs0 hdom
    have hi0len : i0 < l.length := by omega
    have hi0hi : i0 < hi := by omega
    have hk : ∀ j, j ∈ b2j l (l.getD i0 "") → lo ≤ j → j < hi →
        (if j = 0 then 0 else j2len (j - 1)) + 1 = chainLen l lo hi i0 j := by
      intro j hmem hjlo hjhi
      rcases hj2len with ⟨hi0eq, hz⟩ | ⟨hi0gt, hc⟩
      · rw [hz (j - 1)]
        rw [hi0eq] at hmem ⊢
        rw [chainLen_at_lo l lo hi j ⟨hmem, le_refl lo, hjlo, hjhi⟩]
        by_cases h0 : j = 0
        · rw [if_pos h0]
        · rw [if_neg h0]
      · have hcond : j ∈ b2j l (l.getD i0 "") ∧ lo ≤ i0 ∧ lo ≤ j ∧ j < hi :=
          ⟨hmem, by omega, hjlo, hjhi⟩
        by_cases h0 : j = 0
        · rw [if_pos h0]
          rw [chainLen_base l lo hi i0 j hcond (Or.inr h0)]
        · rw [if_neg h0, hc (j - 1)]
          rw [chainLen_rec l lo hi i0 j hcond (by omega) h0]
    obtain ⟨nj2, bi2, bs2, heq, hnj, hblo2, hbhi2, hbs02, hdomOld2, hdomNew2⟩ :=
      innerPass_self l lo hi i0 hi0len hi0lo hi0hi j2len hk
        (b2j l (l.getD i0 "")) [] (fun _ => 0) bi bs rfl
        (by intro x hx; cases hx)
        (b2j_sorted l (l.getD i0 ""))
        (by intro x; rw [if_neg]; intro hcc; cases hcc.1)
        hblo hbhi hbs0 hdom
        (by intro j2 hj2; cases hj2)
    rw [List.range'_succ]
    have hstep : outerPass l (b2j l) lo hi (i0 :: List.range' (i0 + 1) n) j2len (bi, bi, bs)
        = outerPass l (b2j l) lo hi (List.range' (i0 + 1) n) nj2 (bi2, bi2, bs2) := by
      simp only [outerPass]
      rw [heq]
    rw [hstep]
    apply ihp (i0 + 1) (by omega) (by omega) nj2 bi2 bs2
    · right
      refine ⟨by omega, ?_⟩
      intro x
      rw [hnj x]
      congr 1
    · exact hblo2
    · exact hbhi2
    · exact hbs02
    · intro i2 j2 hi2
      by_cases hii : i2 < i0
      · exact hdomOld2 i2 j2 hii
      · have : i2 = i0 := by omega
        subst this
        exact hdomNew2 j2

/-- The first backward extension loop on two equal sequences with equal
windows: from a diagonal best it reaches the left edge of the window. -/
theorem extendBackward_diag_self (l : Lines) (lo : Nat) :
    ∀ (fuel bi bs : Nat), lo ≤ bi → bi - lo ≤ fuel →
      extendBackward l l (fun _ => false) lo lo fuel (bi, bi, bs)
        = (lo, lo, bs + (bi - lo)) := by
  intro fuel
  induction fuel with
  | zero =>
    intro bi bs hlo hfuel
    have hbi : bi = lo := by omega
    subst hbi
    simp [extendBackward]
  | succ n ih =>
    intro bi bs hlo hfuel
    by_cases hbi : lo < bi
    · have hstep : extendBackward l l (fun _ => false) lo lo (n + 1) (bi, bi, bs)
          = extendBackward l l (fun _ => false) lo lo n (bi - 1, bi - 1, bs + 1) := by
        simp only [extendBackward]
        rw [if_pos (by simp [hbi])]
      rw [hstep, ih (bi - 1) (bs + 1) (by omega) (by omega)]
      have harith : bs + 1 + (bi - 1 - lo) = bs + (bi - lo) := by omega
      rw [harith]
    · have hbi2 : bi = lo := by omega
      subst hbi2
      simp only [extendBackward]
      rw [if_neg (by intro hcc; exact absurd hcc.1 hbi)]
      simp

/-- The second extension loop on two equal sequences with equal windows: from
a left-edge diagonal match it stretches to the full window. -/
theorem extendForward_diag_self (l : Lines) (lo hi : Nat) :
    ∀ (fuel bs : Nat), lo + bs ≤ hi → hi - (lo + bs) ≤ fuel →
      extendForward l l (fun _ => false) hi hi lo lo fuel bs = hi - lo := by
  intro fuel
  induction fuel with
  | zero =>
    intro bs h1 h2
    have hbs : bs = hi - lo := by omega
    subst hbs
    simp [extendForward]
  | succ n ih =>
    intro bs h1 h2
    by_cases hlt : lo + bs < hi
    · have hstep : extendForward l l (fun _ => false) hi hi lo lo (n + 1) bs
          = extendForward l l (fun _ => false) hi hi lo lo n (bs + 1) := by
        simp only [extendForward]
        rw [if_pos (by simp [hlt])]
      rw [hstep]
      exact ih (bs + 1) (by omega) (by omega)
    · have hbs : bs = hi - lo := by omega
      simp only [extendForward]
      rw [if_neg (by intro hcc; exact absurd hcc.1 hlt)]
      exact hbs

/-- With the empty junk set the third extension loop is the identity. -/
theorem extendBackwardJunk_id (a b : Lines) (alo blo fuel : Nat)
    (best : Nat × Nat × Nat) :
    extendBackwardJunk a b (fun _ => false) alo blo fuel best = best := by
  cases fuel with
  | zero => rfl
  | succ n =>
    obtain ⟨bi, bj, bs⟩ := best
    simp only [extendBackwardJunk]
    rw [if_neg]
    intro hcc
    exact absurd hcc.2.2.1 (by simp)

/-- With the empty junk set the fourth extension loop returns its input size. -/
theorem extendForwardJunk_id (a b : Lines) (ahi bhi bi bj fuel bs : Nat) :
    extendForwardJunk a b (fun _ => false) ahi bhi bi bj fuel bs = bs := by
  cases fuel with
  | zero => rfl
  | succ n =>
    simp only [extendForwardJunk]
    rw [if_neg]
    intro hcc
    exact absurd hcc.2.2.1 (by simp)

/-- find_longest_match on two equal sequences with equal windows returns the
whole window: the first pass yields some diagonal best inside the window and
the extension loops stretch it to the edges. -/
theorem flm_self (l : Lines) (lo hi : Nat) (hlo : lo ≤ hi) (hhi : hi ≤ l.length) :
    find_longest_match l l lo hi lo hi = (lo, lo, hi - lo) := by
  obtain ⟨bi2, bs2, heq, hblo, hbhi, hbs0, hdom⟩ :=
    outerPass_self l lo hi hhi (hi - lo) lo (Nat.le_refl lo) (by omega)
      (fun _ => 0) lo 0 (Or.inl ⟨rfl, fun _ => rfl⟩) (Nat.le_refl lo) (by omega)
      (fun h => rfl)
      (fun i2 j2 h2 => le_of_eq (chainLen_zero_of_lt_lo l lo hi i2 j2 h2))
  simp only [find_longest_match]
  rw [heq]
  rw [extendBackward_diag_self l lo bi2 bi2 bs2 hblo (by omega)]
  rw [extendForward_diag_self l lo hi hi (bs2 + (bi2 - lo)) (by omega) (by omega)]
  rw [extendBackwardJunk_id, extendForwardJunk_id]



/-- The tiling of two equal sequences over the full windows is the single
full-window block (or nothing when the sequences are empty). -/
theorem matchingBlocksAux_self (l : Lines) (fuel : Nat) :
    matchingBlocksAux l l (fuel + 1) 0 l.length 0 l.length
      = if l.length = 0 then [] else [(0, 0, l.length)] := by
  have hflm := flm_self l 0 l.length (Nat.zero_le _) (Nat.le_refl _)
  rw [Nat.sub_zero] at hflm
  simp only [matchingBlocksAux, hflm]
  by_cases h : l.length = 0
  · rw [if_pos h, if_pos h]
  · rw [if_neg h, if_neg h]
    rw [if_neg (by intro hcc; exact absurd hcc.1 (Nat.lt_irrefl 0))]
    rw [if_neg (by intro hcc; simp only [Nat.zero_add] at hcc; exact absurd hcc.1 (Nat.lt_irrefl _))]
    simp

/-- get_matching_blocks of two equal sequences: the full-window block when
nonempty, then the sentinel. -/
theorem get_matching_blocks_self (l : Lines) :
    get_matching_blocks l l =
      if l.length = 0 then [(0, 0, 0)]
      else [(0, 0, l.length), (l.length, l.length, 0)] := by
  unfold get_matching_blocks
  rw [matchingBlocksAux_self l (l.length + l.length)]
  by_cases h : l.length = 0
  · rw [if_pos h, if_pos h]
    simp [collapseBlocks, h]
  · rw [if_neg h, if_neg h]
    simp [collapseBlocks, h]

/-- get_opcodes of two equal sequences: a single equal opcode over the whole
range, or nothing when the sequences are empty. -/
theorem get_opcodes_self (l : Lines) :
    get_opcodes l l =
      if l.length = 0 then []
      else [(DiffTag.equal, 0, l.length, 0, l.length)] := by
  unfold get_opcodes
  rw [get_matching_blocks_self]
  by_cases h : l.length = 0
  · rw [if_pos h, if_pos h]
    simp [opcodesFrom]
  · rw [if_neg h, if_neg h]
    simp [opcodesFrom, h]

/-- Grouping a single full-range equal opcode with the default context yields
no group: the lone equal group is dropped. -/
theorem grouped_single_equal (L : Nat) :
    get_grouped_opcodes 3 [(DiffTag.equal, 0, L, 0, L)] = [] := by
  simp only [get_grouped_opcodes]
  rw [if_neg (by simp)]
  simp only [fixHead]
  rw [Nat.max_eq_right (Nat.zero_le (L - 3))]
  simp only [fixLast, List.getLast?_singleton, List.dropLast_single, List.nil_append]
  rw [Nat.min_eq_left (by omega : L ≤ L - 3 + 3)]
  simp only [groupLoop]
  rw [if_neg (by intro hcc; exact absurd hcc.2 (by omega))]
  rw [List.nil_append]

/-- unified_diff of two equal line sequences is empty. -/
theorem unified_diff_self (l : Lines) : unified_diff l l = [] := by
  simp only [unified_diff]
  rw [get_opcodes_self]
  by_cases h : l.length = 0
  · rw [if_pos h]
    rfl
  · rw [if_neg h]
    rw [grouped_single_equal l.length]
    rfl

/-- C4: the Differ edge case of the spec. When the two input documents are
identical, the unified diff is empty, link extraction yields nothing, and the
pipeline Result List is empty; main then prints a count of zero. -/
theorem c4_identical (d : String) : pipeline_result d d = [] := by
  simp only [pipeline_result, find_and_extract_diff_links, unified_diff_self]
  rfl

end IgTools
